import Mathlib

/-!
Verification of the reddit-monitor triage pipeline.

The Python sources (`src/queue_manager.py`, `src/prefilter.py`,
`src/gemini_analyzer.py`, `src/main.py`, `config.py`) are embedded as
executable Lean definitions below.  Text is modelled as `List Char`;
machine timestamps as `Int` seconds; the Python standard-library pieces
the code calls (`email.utils.parsedate_to_datetime`, `datetime.now`,
the network clients) are parameters or oracles.  Whitespace for Python's
`str.strip` and the regex class is modelled by the six ASCII whitespace
characters.
-/

/-- The ASCII whitespace characters recognised by Python's `str.strip`
and the regex class used in `parse_batch_response`. -/
def pyWs (c : Char) : Bool :=
  c = ' ' || c = '\t' || c = '\n' || c = '\r' || c = '\x0b' || c = '\x0c'

/-- The four whitespace characters skipped by Python's `json` scanner. -/
def jsonWs (c : Char) : Bool :=
  c = ' ' || c = '\t' || c = '\n' || c = '\r'

/-- Lower-casing of a text, modelling Python `str.lower` on ASCII. -/
def lowerL (l : List Char) : List Char := l.map Char.toLower

/-- `startsWith pat l` holds when `pat` is an initial segment of `l`. -/
def startsWith : List Char → List Char → Bool
  | [], _ => true
  | _ :: _, [] => false
  | p :: ps, c :: cs => p == c && startsWith ps cs

/-- `occursIn pat l`: `pat` occurs somewhere in `l` (Python `pat in l`). -/
def occursIn (pat : List Char) : List Char → Bool
  | [] => startsWith pat []
  | c :: cs => startsWith pat (c :: cs) || occursIn pat cs

/-- Index of the first occurrence of a character, if any. -/
def firstIdx (c : Char) : List Char → Option Nat
  | [] => none
  | a :: t => if a = c then some 0 else (firstIdx c t).map (· + 1)

/-- Index of the last occurrence of a character, if any. -/
def lastIdx (c : Char) (l : List Char) : Option Nat :=
  (firstIdx c l.reverse).map (fun k => l.length - 1 - k)

/-- Fueled scanner for `re.sub(pat + r"\s*", "", text)` with a literal
`pat`: scan left to right; at a match, delete the pattern and the
maximal whitespace run after it and continue after the deletion. -/
def subPatGo (pat : List Char) : Nat → List Char → List Char
  | 0, l => l
  | _ + 1, [] => []
  | f + 1, a :: t =>
    if !pat.isEmpty && startsWith pat (a :: t) then
      subPatGo pat f (List.dropWhile pyWs (List.drop pat.length (a :: t)))
    else a :: subPatGo pat f t

/-- `re.sub(pat + r"\s*", "", l)` for a literal, non-empty `pat`. -/
def subPat (pat l : List Char) : List Char := subPatGo pat l.length l

/-- Python `str.strip()` (restricted to ASCII whitespace). -/
def pyStrip (l : List Char) : List Char :=
  ((l.dropWhile pyWs).reverse.dropWhile pyWs).reverse

/-- A Python value as it appears in parsed classifier responses. -/
inductive PyVal where
  | none
  | bool (b : Bool)
  | int (i : Int)
  | str (s : List Char)
  | list (xs : List PyVal)
  | dict (kvs : List (List Char × PyVal))

/-- Python `dict.get(key)` on an association list (keys are unique in a
Python dict, so first match suffices). -/
def pyGet : List (List Char × PyVal) → List Char → Option PyVal
  | [], _ => Option.none
  | (k, v) :: t, key => if k = key then some v else pyGet t key

/-- Python truthiness of a value. -/
def pyTruthy : PyVal → Bool
  | .none => false
  | .bool b => b
  | .int i => i != 0
  | .str s => !s.isEmpty
  | .list xs => !xs.isEmpty
  | .dict kvs => !kvs.isEmpty

/-- Exceptions raised by the modelled fragment of Python. -/
inductive PyErr where
  | typeError
  | indexError
deriving DecidableEq

/-- Python list indexing `l[i]` with an `int` index: negative indices
count from the end; out of range raises `IndexError`. -/
def pyListIndex (l : List α) (i : Int) : Except PyErr α :=
  let j : Int := if i < 0 then (l.length : Int) + i else i
  if j < 0 then .error .indexError
  else
    match l.get? j.toNat with
    | some a => .ok a
    | Option.none => .error .indexError

/- ===== config.py ===== -/

/-- The relevance keyword containing an apostrophe. -/
def kwCantFind : List Char := ['c', 'a', 'n', '\'', 't', ' ', 'f', 'i', 'n', 'd']

/-- `RELEVANCE_KEYWORDS` from `config.py`. -/
def RELEVANCE_KEYWORDS : List (List Char) :=
  ["frustrated".toList, "hate to".toList, kwCantFind, "wish there was".toList,
   "struggling with".toList, "annoying".toList, "tedious".toList, "manual work".toList,
   "recommend".toList, "looking for".toList, "best way".toList, "how do I".toList,
   "what do you use".toList, "tool".toList, "software".toList, "app".toList,
   "solution".toList, "workflow".toList, "process".toList, "manage".toList,
   "organize".toList, "track".toList, "automation".toList, "save time".toList,
   "scale".toList, "growth".toList]

/-- `EXCLUDE_KEYWORDS` from `config.py`. -/
def EXCLUDE_KEYWORDS : List (List Char) :=
  ["job".toList, "hiring".toList, "looking for developer".toList,
   "freelancer needed".toList, "just launched".toList,
   "check out my product".toList, "showerthoughts".toList,
   "NSFW".toList, "sale".toList, "black friday".toList, "promo".toList,
   "API".toList, "SDK".toList, "documentation".toList, "backend".toList]

/-- `MAX_PROCESSED_POSTS` from `config.py`. -/
def MAX_PROCESSED_POSTS : Nat := 5000

/- ===== queue_manager.py data model ===== -/

/-- An incoming item as a record of optional string fields (a field is
`none` when the Python dict lacks the key). -/
structure RawItem where
  id : Option (List Char)
  itype : Option (List Char)
  subreddit : Option (List Char)
  title : Option (List Char)
  content : Option (List Char)
  link : Option (List Char)
  author : Option (List Char)
  search_keyword : Option (List Char)
  published : Option (List Char)

/-- A queue entry as written by `add_to_queue`. -/
structure Entry where
  id : List Char
  etype : List Char
  subreddit : List Char
  title : List Char
  content : List Char
  link : List Char
  author : List Char
  search_keyword : List Char
  relevance_score : Nat
  added_at : List Char
deriving DecidableEq

/-- `ITEMS_PER_RUN` from `queue_manager.py`. -/
def ITEMS_PER_RUN : Nat := 40

/-- `calculate_relevance_score`: count of relevance keywords occurring
(case-insensitively) in `title + ' ' + content`. -/
def calculate_relevance_score (item : RawItem) : Nat :=
  let text := lowerL (item.title.getD [] ++ ' ' :: item.content.getD [])
  (RELEVANCE_KEYWORDS.map (fun kw => if occursIn (lowerL kw) text then 1 else 0)).sum

/-- `item.get('id', item.get('link', ''))`. -/
def computedId (item : RawItem) : List Char := item.id.getD (item.link.getD [])

/-- The queue entry built for an accepted item (`now` is the enqueue
timestamp `datetime.now().isoformat()`). -/
def mkQueueEntry (now : List Char) (item : RawItem) : Entry :=
  { id := computedId item
    etype := item.itype.getD "post".toList
    subreddit := item.subreddit.getD []
    title := item.title.getD []
    content := item.content.getD []
    link := item.link.getD []
    author := item.author.getD []
    search_keyword := item.search_keyword.getD []
    relevance_score := calculate_relevance_score item
    added_at := now }

/-- The candidate loop of `add_to_queue`: skip an item whose computed id
is in the pre-call store or the processed set, otherwise append a new
entry; return the appended entries and their count. -/
def addLoop (existing processed : List (List Char)) (now : List Char) :
    List RawItem → List Entry × Nat
  | [] => ([], 0)
  | it :: rest =>
    let iid := computedId it
    if iid ∈ existing ∨ iid ∈ processed then addLoop existing processed now rest
    else
      let p := addLoop existing processed now rest
      (mkQueueEntry now it :: p.1, p.2 + 1)

/-- Insert an entry into a score-descending list, after all entries with
a score `≥` its own (the placement a stable descending sort gives). -/
def insertByScore (e : Entry) : List Entry → List Entry
  | [] => [e]
  | x :: xs =>
    if x.relevance_score < e.relevance_score then e :: x :: xs
    else x :: insertByScore e xs

/-- Left fold of `insertByScore`, processing entries in list order. -/
def sortFold : List Entry → List Entry → List Entry
  | acc, [] => acc
  | acc, e :: es => sortFold (insertByScore e acc) es

/-- The stable descending sort performed by
`queue.sort(key=relevance_score, reverse=True)` (Python's sort is
stable; a stable sort's output is uniquely determined, so this
insertion-based model is extensionally the Python sort). -/
def pySortDesc (l : List Entry) : List Entry := sortFold [] l

/-- `add_to_queue(items, processed_ids)` acting on the loaded store
`queue`; returns the persisted store and `added_count`. -/
def add_to_queue (queue : List Entry) (processed : List (List Char))
    (items : List RawItem) (now : List Char) : List Entry × Nat :=
  let existing := queue.map (·.id)
  let p := addLoop existing processed now items
  (pySortDesc (queue ++ p.1), p.2)

/-- `get_items_to_process(count)`: the first `count` entries of the
store; the store is not written (second component is the unchanged
persisted state). -/
def get_items_to_process (st : List Entry) (count : Nat) :
    List Entry × List Entry :=
  (st.take count, st)

/-- `remove_from_queue(item_ids)`: returns the persisted store, the
computed `removed_count`, and the count reported on stdout (`none` when
nothing was printed). -/
def remove_from_queue (st : List Entry) (ids : List (List Char)) :
    List Entry × Nat × Option Nat :=
  let nq := st.filter (fun e => decide (e.id ∉ ids))
  let rc := st.length - nq.length
  (nq, rc, if 0 < rc then some rc else Option.none)

/-- The statistics record built by `get_queue_stats`. -/
structure QueueStats where
  total : Nat
  by_type : List (List Char × Nat)
  high : Nat
  medium : Nat
  low : Nat
deriving DecidableEq

/-- `stats['by_type'][t] = stats['by_type'].get(t, 0) + 1` on an
insertion-ordered association list. -/
def bumpType (m : List (List Char × Nat)) (t : List Char) :
    List (List Char × Nat) :=
  match m with
  | [] => [(t, 1)]
  | (k, v) :: r => if k = t then (k, v + 1) :: r else (k, v) :: bumpType r t

/-- `get_queue_stats()` on the loaded store. -/
def get_queue_stats (st : List Entry) : QueueStats :=
  st.foldl
    (fun s e =>
      let s1 := { s with by_type := bumpType s.by_type e.etype }
      if 3 ≤ e.relevance_score then { s1 with high := s1.high + 1 }
      else if 1 ≤ e.relevance_score then { s1 with medium := s1.medium + 1 }
      else { s1 with low := s1.low + 1 })
    { total := st.length, by_type := [], high := 0, medium := 0, low := 0 }

/- ===== prefilter.py ===== -/

/-- `MAX_POST_AGE_DAYS` from `prefilter.py`. -/
def MAX_POST_AGE_DAYS : Nat := 7

/-- Seconds per day, fixing the time unit of the `Int` timestamp model. -/
def secPerDay : Int := 86400

/-- `is_post_too_old(item)`.  `parseDate` models the standard-library
`parsedate_to_datetime` (returning `none` where Python raises), `now`
models `datetime.now` in the same timezone arithmetic; both are in
seconds.  Empty or missing `published` and unparseable dates are kept. -/
def is_post_too_old (parseDate : List Char → Option Int) (now : Int)
    (item : RawItem) : Bool :=
  let published := item.published.getD []
  if published.isEmpty then false
  else
    match parseDate published with
    | some pub => decide (pub < now - (MAX_POST_AGE_DAYS : Int) * secPerDay)
    | Option.none => false

/-- `pre_filter(items)`: drop too-old items, then items containing an
exclude keyword; keep everything else in order. -/
def pre_filter (parseDate : List Char → Option Int) (now : Int) :
    List RawItem → List RawItem
  | [] => []
  | it :: rest =>
    if is_post_too_old parseDate now it then pre_filter parseDate now rest
    else
      let text := lowerL (it.title.getD [] ++ ' ' :: it.content.getD [])
      if EXCLUDE_KEYWORDS.any (fun kw => occursIn (lowerL kw) text) then
        pre_filter parseDate now rest
      else it :: pre_filter parseDate now rest

/- ===== json.loads (the Python standard-library JSON scanner, used by
   gemini_analyzer.parse_batch_response) ===== -/

/-- A parsed JSON value.  Numbers are kept as their lexeme, string
contents as code points (so lone surrogates from `\uXXXX` escapes are
representable); `NaN`, `Infinity`, `-Infinity` are accepted constants
of Python's `json.loads`. -/
inductive Json where
  | null
  | b (v : Bool)
  | numLit (s : List Char)
  | str (codes : List Nat)
  | arr (elems : List Json)
  | obj (mems : List (List Nat × Json))
  | nan
  | inf
  | ninf

/-- Hexadecimal digit value. -/
def hexVal (c : Char) : Option Nat :=
  if '0' ≤ c ∧ c ≤ '9' then some (c.toNat - 48)
  else if 'a' ≤ c ∧ c ≤ 'f' then some (c.toNat - 87)
  else if 'A' ≤ c ∧ c ≤ 'F' then some (c.toNat - 55)
  else Option.none

/-- Value of four hexadecimal digits. -/
def hex4 (a b c d : Char) : Option Nat :=
  match hexVal a, hexVal b, hexVal c, hexVal d with
  | some x, some y, some z, some w => some (((x * 16 + y) * 16 + z) * 16 + w)
  | _, _, _, _ => Option.none

/-- Single-character JSON string escapes. -/
def escChar (c : Char) : Option Nat :=
  if c = '"' then some 34 else if c = '\\' then some 92
  else if c = '/' then some 47 else if c = 'b' then some 8
  else if c = 'f' then some 12 else if c = 'n' then some 10
  else if c = 'r' then some 13 else if c = 't' then some 9
  else Option.none

/-- Body of a JSON string, positioned just after the opening quote:
returns the code points and the remainder after the closing quote.
Surrogate pairs in `\u` escapes combine; a lone high surrogate is kept
as is (as in CPython's `py_scanstring`); unescaped control characters
fail (`strict=True`). -/
def parseStringBody : List Char → Option (List Nat × List Char)
  | [] => Option.none
  | '"' :: rest => some ([], rest)
  | '\\' :: 'u' :: h1 :: h2 :: h3 :: h4 :: rest =>
    match hex4 h1 h2 h3 h4 with
    | Option.none => Option.none
    | some n =>
      if 0xD800 ≤ n ∧ n ≤ 0xDBFF then
        match _hr : rest with
        | '\\' :: 'u' :: g1 :: g2 :: g3 :: g4 :: rest2 =>
          match hex4 g1 g2 g3 g4 with
          | some m =>
            if 0xDC00 ≤ m ∧ m ≤ 0xDFFF then
              (parseStringBody rest2).map
                (fun p => ((0x10000 + (n - 0xD800) * 0x400 + (m - 0xDC00)) :: p.1, p.2))
            else (parseStringBody rest).map (fun p => (n :: p.1, p.2))
          | Option.none => (parseStringBody rest).map (fun p => (n :: p.1, p.2))
        | _ => (parseStringBody rest).map (fun p => (n :: p.1, p.2))
      else (parseStringBody rest).map (fun p => (n :: p.1, p.2))
  | '\\' :: c :: rest =>
    match escChar c with
    | some code => (parseStringBody rest).map (fun p => (code :: p.1, p.2))
    | Option.none => Option.none
  | c :: rest =>
    if c.toNat < 0x20 then Option.none
    else (parseStringBody rest).map (fun p => (c.toNat :: p.1, p.2))
termination_by l => l.length
decreasing_by all_goals (simp_all [List.length_cons] <;> omega)

/-- Split a maximal run of decimal digits. -/
def splitDigits (l : List Char) : List Char × List Char :=
  (l.takeWhile Char.isDigit, l.dropWhile Char.isDigit)

/-- Integer part of the JSON number regex: `0` or a nonzero digit
followed by digits. -/
def parseIntPart : List Char → Option (List Char × List Char)
  | '0' :: rest => some (['0'], rest)
  | c :: rest =>
    if c.isDigit then
      let p := splitDigits rest
      some (c :: p.1, p.2)
    else Option.none
  | [] => Option.none

/-- Optional fraction group `(\.\d+)?`. -/
def parseFrac (l : List Char) : List Char × List Char :=
  match l with
  | '.' :: rest =>
    let p := splitDigits rest
    if p.1.isEmpty then ([], l) else ('.' :: p.1, p.2)
  | _ => ([], l)

/-- Optional exponent group `([eE][-+]?\d+)?`. -/
def parseExp (l : List Char) : List Char × List Char :=
  match l with
  | c :: rest =>
    if c = 'e' ∨ c = 'E' then
      match rest with
      | s :: rest2 =>
        if s = '+' ∨ s = '-' then
          let p := splitDigits rest2
          if p.1.isEmpty then ([], l) else (c :: s :: p.1, p.2)
        else
          let p := splitDigits rest
          if p.1.isEmpty then ([], l) else (c :: p.1, p.2)
      | [] => ([], l)
    else ([], l)
  | [] => ([], l)

/-- The JSON number match at the head of `l`, keeping the lexeme. -/
def parseNumber (l : List Char) : Option (Json × List Char) :=
  match l with
  | '-' :: rest =>
    match parseIntPart rest with
    | some (ip, r1) =>
      let f := parseFrac r1
      let e := parseExp f.2
      some (.numLit ('-' :: (ip ++ f.1 ++ e.1)), e.2)
    | Option.none => Option.none
  | _ =>
    match parseIntPart l with
    | some (ip, r1) =>
      let f := parseFrac r1
      let e := parseExp f.2
      some (.numLit (ip ++ f.1 ++ e.1), e.2)
    | Option.none => Option.none

mutual

/-- One JSON value at the head of the input (no leading whitespace),
with explicit fuel bounding the recursion depth. -/
def parseValue : Nat → List Char → Option (Json × List Char)
  | 0, _ => Option.none
  | f + 1, '{' :: rest =>
    (match List.dropWhile jsonWs rest with
     | '}' :: r2 => some (.obj [], r2)
     | '"' :: r2 => parseObjItems f r2 []
     | _ => Option.none)
  | f + 1, '[' :: rest =>
    (match List.dropWhile jsonWs rest with
     | ']' :: r2 => some (.arr [], r2)
     | r1 => parseArrItems f r1 [])
  | _ + 1, '"' :: rest => (parseStringBody rest).map (fun p => (.str p.1, p.2))
  | _ + 1, l =>
    if startsWith ("true".toList) l then some (.b true, l.drop 4)
    else if startsWith ("false".toList) l then some (.b false, l.drop 5)
    else if startsWith ("null".toList) l then some (.null, l.drop 4)
    else if startsWith ("NaN".toList) l then some (.nan, l.drop 3)
    else if startsWith ("Infinity".toList) l then some (.inf, l.drop 8)
    else if startsWith ("-Infinity".toList) l then some (.ninf, l.drop 9)
    else parseNumber l

/-- Array elements after at least one element is required (the input is
positioned at a value; a closing bracket right here is a syntax error,
matching no-trailing-comma JSON). -/
def parseArrItems : Nat → List Char → List Json → Option (Json × List Char)
  | 0, _, _ => Option.none
  | f + 1, l, acc =>
    match parseValue f l with
    | Option.none => Option.none
    | some (v, r) =>
      match List.dropWhile jsonWs r with
      | ']' :: r2 => some (.arr (acc ++ [v]), r2)
      | ',' :: r2 => parseArrItems f (List.dropWhile jsonWs r2) (acc ++ [v])
      | _ => Option.none

/-- Object members, positioned just after the opening quote of a key. -/
def parseObjItems : Nat → List Char → List (List Nat × Json) →
    Option (Json × List Char)
  | 0, _, _ => Option.none
  | f + 1, l, acc =>
    match parseStringBody l with
    | Option.none => Option.none
    | some (key, r1) =>
      match List.dropWhile jsonWs r1 with
      | ':' :: r2 =>
        (match parseValue f (List.dropWhile jsonWs r2) with
         | Option.none => Option.none
         | some (v, r3) =>
           match List.dropWhile jsonWs r3 with
           | '}' :: r4 => some (.obj (acc ++ [(key, v)]), r4)
           | ',' :: r4 =>
             (match List.dropWhile jsonWs r4 with
              | '"' :: r5 => parseObjItems f r5 (acc ++ [(key, v)])
              | _ => Option.none)
           | _ => Option.none)
      | _ => Option.none

end

/-- `json.loads(l)`: skip whitespace, scan one value, require only
whitespace after it.  The fuel `2 * l.length + 2` dominates the scanner's
recursion depth (each two fuel units consume at least one character). -/
def jsonParse (l : List Char) : Option Json :=
  match parseValue (2 * l.length + 2) (l.dropWhile jsonWs) with
  | some (v, rest) => if (rest.dropWhile jsonWs).isEmpty then some v else Option.none
  | Option.none => Option.none

/- ===== gemini_analyzer.parse_batch_response ===== -/

/-- The literal of the first `re.sub` pattern. -/
def fenceJson : List Char := "```json".toList

/-- The literal of the second `re.sub` pattern. -/
def fenceTicks : List Char := "```".toList

/-- The text cleaning done by `parse_batch_response` before parsing:
remove code-fence markers (each with trailing whitespace) and strip. -/
def cleanResp (text : List Char) : List Char :=
  pyStrip (subPat fenceTicks (subPat fenceJson text))

/-- The match of `re.search(r"\[[\s\S]*\]", text)`: from the first `[`
that has a `]` after it, through the last `]`. -/
def bracketSlice (l : List Char) : Option (List Char) :=
  match firstIdx '[' l, lastIdx ']' l with
  | some i, some j => if i < j then some ((l.take (j + 1)).drop i) else Option.none
  | _, _ => Option.none

/-- Whether a parse produced a JSON array (Python `isinstance(x, list)`). -/
def isArrValue : Option Json → Bool
  | some (.arr _) => true
  | _ => false

/-- `parse_batch_response(text)`: clean, try `json.loads` expecting an
array; otherwise try the bracket-delimited slice; otherwise no verdicts. -/
def parse_batch_response (text : List Char) : List Json :=
  let t3 := cleanResp text
  match jsonParse t3 with
  | some (.arr vs) => vs
  | _ =>
    match bracketSlice t3 with
    | some s =>
      match jsonParse s with
      | some (.arr vs) => vs
      | _ => []
    | Option.none => []

/-- A response text `t` wrapped in markdown code-fence markers. -/
def fenceWrap (t : List Char) : List Char :=
  "```json\n".toList ++ t ++ "\n```".toList

/-- Whether some contiguous substring of `l` parses as a JSON array. -/
def hasValidArrSub (l : List Char) : Bool :=
  (List.range (l.length + 1)).any fun i =>
    (List.range (l.length + 1)).any fun j =>
      isArrValue (jsonParse ((l.drop i).take j))

/- ===== gemini_analyzer.analyze_batch and the verdict loop shared by
   analyze_posts_batch (gemini_analyzer.py) and main (main.py) ===== -/

/-- `MAX_RETRIES` from `gemini_analyzer.py` (the retry ceiling). -/
def MAX_RETRIES : Nat := 1

/-- `BATCH_SIZE` from `gemini_analyzer.py`. -/
def BATCH_SIZE : Nat := 20

/-- Outcome of one provider call: a response text, a quota/rate-limit
exception (message containing `429`/`quota`), or any other exception. -/
inductive CallOutcome where
  | ok (text : List Char)
  | quota
  | err

/-- The environment of `analyze_batch`: which API keys are set and what
the n-th call of each provider returns. -/
structure AEnv where
  geminiKey : Bool
  deepseekKey : Bool
  gmCall : Nat → CallOutcome
  dsCall : Nat → CallOutcome

/-- The module-global mutable state of `gemini_analyzer`, plus counters
of calls made and backoff waits performed (observables of a run). -/
structure AState where
  gemini_exhausted : Bool
  current_provider : List Char
  gCalls : Nat
  dCalls : Nat
  waits : List Nat
deriving DecidableEq

/-- Fueled body of `analyze_batch(items, batch_num, retry_count)`.  The
fuel only bounds the recursion (`MAX_RETRIES - retry_count` retries plus
one failover call); `analyzeBatchGen` supplies enough. -/
def analyzeBatchGo (maxR : Nat) (env : AEnv) (items : List RawItem) :
    Nat → AState → Nat → List Json × AState
  | 0, st, _ => ([], st)
  | fuel + 1, st, retry_count =>
    if items.isEmpty then ([], st)
    else
      let use_ds := st.gemini_exhausted || !env.geminiKey
      if use_ds && !env.deepseekKey then ([], st)
      else if use_ds then
        let st1 := { st with current_provider := "deepseek".toList,
                             dCalls := st.dCalls + 1 }
        match env.dsCall st.dCalls with
        | .ok t => (parse_batch_response t, st1)
        | _ => ([], st1)
      else
        let st1 := { st with current_provider := "gemini".toList,
                             gCalls := st.gCalls + 1 }
        match env.gmCall st.gCalls with
        | .ok t => (parse_batch_response t, st1)
        | .quota =>
          if retry_count < maxR then
            analyzeBatchGo maxR env items fuel
              { st1 with waits := st1.waits ++ [10 * (retry_count + 1)] }
              (retry_count + 1)
          else if env.deepseekKey then
            analyzeBatchGo maxR env items fuel
              { st1 with gemini_exhausted := true } 0
          else ([], st1)
        | .err => ([], st1)

/-- `analyze_batch` with the retry ceiling as a parameter. -/
def analyzeBatchGen (maxR : Nat) (env : AEnv) (items : List RawItem)
    (st : AState) (retry_count : Nat) : List Json × AState :=
  analyzeBatchGo maxR env items (maxR + 2) st retry_count

/-- `analyze_batch(items, batch_num)` as called by the pipeline
(`retry_count = 0`, ceiling `MAX_RETRIES`). -/
def analyze_batch (env : AEnv) (items : List RawItem) (st : AState) :
    List Json × AState :=
  analyzeBatchGen MAX_RETRIES env items st 0

/-- An item accepted by the verdict loop: the chunk item together with
the `analysis` fields attached from the verdict. -/
structure Analyzed (α : Type) where
  item : α
  reason : PyVal
  reply_draft : PyVal

/-- The per-verdict step of the loop in `main` (and identically in
`analyze_posts_batch`), for one result dict already known to be a dict:
returns the accepted item, `none` for a skip, or the exception Python
raises. -/
def verdictStep (batch : List α) (kvs : List (List Char × PyVal)) :
    Except PyErr (Option (Analyzed α)) :=
  let accept (i : Int) : Except PyErr (Option (Analyzed α)) :=
    if pyTruthy ((pyGet kvs "is_relevant".toList).getD (.bool false)) then
      match pyListIndex batch i with
      | .ok it =>
        .ok (some { item := it,
                    reason := (pyGet kvs "reason".toList).getD (.str []),
                    reply_draft := (pyGet kvs "reply_draft".toList).getD (.str []) })
      | .error e => .error e
    else .ok Option.none
  match (pyGet kvs "index".toList).getD .none with
  | .none => .ok Option.none
  | .int i => if (batch.length : Int) ≤ i then .ok Option.none else accept i
  | .bool bv =>
    let i : Int := if bv then 1 else 0
    if (batch.length : Int) ≤ i then .ok Option.none else accept i
  | _ => .error .typeError

/-- The verdict-processing loop over a chunk's results: non-dicts are
skipped; an exception aborts the remainder. -/
def processBatchResults : List PyVal → List α → Except PyErr (List (Analyzed α))
  | [], _ => .ok []
  | r :: rest, batch =>
    match r with
    | .dict kvs =>
      match verdictStep batch kvs with
      | .error e => .error e
      | .ok o =>
        match processBatchResults rest batch with
        | .error e => .error e
        | .ok tail =>
          .ok (match o with | some a => a :: tail | Option.none => tail)
    | _ => processBatchResults rest batch

/- ===== main.py, phase 2 (dequeue → classify loop → checkpoint →
   dequeue-ack), with the classifier as an oracle and the missing
   reddit_fetcher checkpoint persistence modelled from the spec ===== -/

/-- `chunk_list(items, n)` (fueled; `go` is total and `chunk_list`
supplies fuel `l.length`, enough since `n ≥ 1` consumes each step). -/
def chunkGo (n : Nat) : Nat → List α → List (List α)
  | 0, _ => []
  | f + 1, l => if l.isEmpty then [] else l.take n :: chunkGo n f (l.drop n)

/-- `chunk_list(items, n)` from `main.py` (callers use `n = BATCH_SIZE`). -/
def chunk_list (l : List α) (n : Nat) : List (List α) := chunkGo n l.length l

/-- `set.add` on an insertion-ordered model of the Python set. -/
def pyAdd (l : List (List Char)) (x : List Char) : List (List Char) :=
  if x ∈ l then l else l ++ [x]

/-- Modelled from the spec: `save_processed_posts` lives in
`src/reddit_fetcher.py`, which is not part of the provided sources; the
spec says the checkpoint save overwrites the file with the set, capped
at `MAX_PROCESSED_POSTS`, retaining the most-recently-added ids. -/
def capSave (l : List (List Char)) : List (List Char) :=
  l.drop (l.length - MAX_PROCESSED_POSTS)

/-- Observable outcome of one `main` run (phase 2). -/
structure MainOut where
  finalQueue : List Entry
  processedSet : List (List Char)
  checkpoint : List (List Char)
  processedItemIds : List (List Char)
  relevant : List (Analyzed Entry)

/-- The classify loop of `main`: for each chunk, process the oracle's
verdicts, then record every chunk item id (nonempty ids only) into the
processed accumulator and save the checkpoint incrementally. -/
def procBatches (oracle : Nat → List PyVal) :
    Nat → List (List Entry) → List (List Char) → List (List Char) →
    List (List Char) → List (Analyzed Entry) →
    Except PyErr (List (List Char) × List (List Char) × List (List Char) ×
      List (Analyzed Entry))
  | _, [], ps, ck, pids, rel => .ok (ps, ck, pids, rel)
  | bIdx, b :: rest, ps, _ck, pids, rel =>
    match processBatchResults (oracle bIdx) b with
    | .error e => .error e
    | .ok found =>
      let newIds := (b.filter (fun e => !e.id.isEmpty)).map (·.id)
      let ps' := newIds.foldl pyAdd ps
      procBatches oracle (bIdx + 1) rest ps' (capSave ps') (pids ++ newIds)
        (rel ++ found)

/-- `main`'s queue-processing phase: peek `ITEMS_PER_RUN` entries, split
into `BATCH_SIZE` chunks, run the classify loop, then remove every
accumulated id from the store.  `queue0` is the store after phase 1,
`processed0` the loaded checkpoint, `oracle b` the verdict list
`analyze_batch` returns for chunk `b`. -/
def mainRun (queue0 : List Entry) (processed0 : List (List Char))
    (oracle : Nat → List PyVal) : Except PyErr MainOut :=
  let items := queue0.take ITEMS_PER_RUN
  if items.isEmpty then
    .ok { finalQueue := queue0, processedSet := processed0,
          checkpoint := processed0, processedItemIds := [], relevant := [] }
  else
    match procBatches oracle 0 (chunk_list items BATCH_SIZE) processed0
        processed0 [] [] with
    | .error e => .error e
    | .ok (ps, ck, pids, rel) =>
      .ok { finalQueue := queue0.filter (fun e => decide (e.id ∉ pids)),
            processedSet := ps, checkpoint := ck,
            processedItemIds := pids, relevant := rel }

/- ===== helper predicates and concrete fixtures used in statements ===== -/

/-- Sorted by `relevance_score`, highest first. -/
def SortedDesc (l : List Entry) : Prop :=
  l.Pairwise (fun a b => b.relevance_score ≤ a.relevance_score)

/-- The int value of a Python `int` or `bool` (a `bool` is an `int`). -/
def isIntLike : PyVal → Option Int
  | .int i => some i
  | .bool bv => some (if bv then 1 else 0)
  | _ => Option.none

/-- A verdict whose processing cannot raise against a chunk of length
`n`: anything but a dict whose `index` is a string/list/dict (TypeError
at the length comparison) or an int below `-n` that can reach the
subscript (IndexError). -/
def safeV (n : Nat) : PyVal → Bool
  | .dict kvs =>
    match (pyGet kvs "index".toList).getD .none with
    | .none => true
    | .int i => decide (-(n : Int) ≤ i)
    | .bool _ => true
    | _ => false
  | _ => true

/-- The verdicts the loop honors: a dict whose `index` is an int (or
bool) in `[-len, len)` and whose `is_relevant` is truthy, merged with
the indexed chunk item (negative indices count from the end). -/
def honorV (batch : List α) : PyVal → Option (Analyzed α)
  | .dict kvs =>
    match isIntLike ((pyGet kvs "index".toList).getD .none) with
    | some i =>
      if decide (i < (batch.length : Int)) &&
          pyTruthy ((pyGet kvs "is_relevant".toList).getD (.bool false)) then
        match pyListIndex batch i with
        | .ok it =>
          some { item := it,
                 reason := (pyGet kvs "reason".toList).getD (.str []),
                 reply_draft := (pyGet kvs "reply_draft".toList).getD (.str []) }
        | .error _ => Option.none
      else Option.none
    | Option.none => Option.none
  | _ => Option.none

/-- The ids a run records: for every chunk, the nonempty ids of its
items, in order. -/
def runIds (bs : List (List Entry)) : List (List Char) :=
  (bs.map (fun b => (b.filter (fun e => !e.id.isEmpty)).map (·.id))).flatten

/-- A minimal queue entry with a given id. -/
def mkE (iid : List Char) : Entry :=
  { id := iid, etype := "post".toList, subreddit := [], title := [],
    content := [], link := [], author := [], search_keyword := [],
    relevance_score := 0, added_at := [] }

/-- A minimal raw item with a given id and title. -/
def mkItemT (iid title : List Char) : RawItem :=
  { id := some iid, itype := Option.none, subreddit := Option.none,
    title := some title, content := Option.none, link := Option.none,
    author := Option.none, search_keyword := Option.none,
    published := Option.none }

/-- Fixture: relevance score 2 (`tedious`, `tool`). -/
def itmA : RawItem := mkItemT "i1".toList "tedious tool".toList

/-- Fixture: relevance score 5. -/
def itmB : RawItem :=
  mkItemT "i2".toList "frustrated annoying tedious growth scale".toList

/-- Fixture: relevance score 2 (`organize`, `track`). -/
def itmC : RawItem := mkItemT "i3".toList "organize track".toList

/-- Fixture: relevance score 0. -/
def itmD : RawItem := mkItemT "i4".toList "zzz".toList

/-- Fixture: an environment whose primary always reports a quota error
and whose secondary answers with an empty JSON array. -/
def quotaEnv : AEnv :=
  { geminiKey := true, deepseekKey := true,
    gmCall := fun _ => .quota, dsCall := fun _ => .ok "[]".toList }

/-- Fixture: the initial module state of `gemini_analyzer`. -/
def st0 : AState :=
  { gemini_exhausted := false, current_provider := "gemini".toList,
    gCalls := 0, dCalls := 0, waits := [] }

/- ===================== theorems ===================== -/

/- ---- generic list lemmas ---- -/

theorem sum_map_ite_eq_countP (p : α → Bool) (l : List α) :
    (l.map (fun a => if p a then 1 else 0)).sum = l.countP p := by
  induction l with
  | nil => rfl
  | cons a t ih =>
    by_cases h : p a = true <;>
      simp [List.countP_cons, h, ih, Nat.add_comm]

/- ---- C10 ---- -/

/-- C10: `calculate_relevance_score` equals the number of distinct
configured relevance keywords occurring (case-insensitively) in the
concatenated title and content — each keyword contributes at most 1,
however often it occurs — and is between 0 and the number of configured
keywords inclusive. -/
theorem C10_relevance_score_distinct_keywords (item : RawItem) :
    calculate_relevance_score item =
      (RELEVANCE_KEYWORDS.filter (fun kw =>
        occursIn (lowerL kw)
          (lowerL (item.title.getD [] ++ ' ' :: item.content.getD [])))).length ∧
    calculate_relevance_score item ≤ RELEVANCE_KEYWORDS.length := by
  constructor
  · rw [calculate_relevance_score, sum_map_ite_eq_countP, List.countP_eq_length_filter]
  · rw [calculate_relevance_score, sum_map_ite_eq_countP]
    exact List.countP_le_length _

/- ---- C8 ---- -/

theorem stats_total_eq_length (st : List Entry) :
    (get_queue_stats st).total = st.length := by
  rw [get_queue_stats]
  have h : ∀ (l : List Entry) (s : QueueStats),
      (l.foldl (fun s e =>
        let s1 := { s with by_type := bumpType s.by_type e.etype }
        if 3 ≤ e.relevance_score then { s1 with high := s1.high + 1 }
        else if 1 ≤ e.relevance_score then { s1 with medium := s1.medium + 1 }
        else { s1 with low := s1.low + 1 }) s).total = s.total := by
    intro l
    induction l with
    | nil => intro s; rfl
    | cons a t ih =>
      intro s
      simp only [List.foldl_cons, ih]
      by_cases h3 : 3 ≤ a.relevance_score <;> by_cases h1 : 1 ≤ a.relevance_score <;>
        simp [h3, h1]
  exact h st _

/-- C8: `get_items_to_process n` returns the first `n` entries in store
order and does not mutate the persisted store; the stats computed
immediately afterwards report the same total as before. -/
theorem C8_nondestructive_peek (st : List Entry) (n : Nat) :
    (get_items_to_process st n).1 = st.take n ∧
    (get_items_to_process st n).2 = st ∧
    (get_queue_stats (get_items_to_process st n).2).total =
      (get_queue_stats st).total := by
  exact ⟨rfl, rfl, rfl⟩

/- ---- C7 ---- -/

theorem length_sub_filter (st : List Entry) (ids : List (List Char)) :
    st.length - (st.filter (fun e => decide (e.id ∉ ids))).length =
      (st.filter (fun e => decide (e.id ∈ ids))).length := by
  induction st with
  | nil => rfl
  | cons a t ih =>
    have hle := List.length_filter_le (fun e => decide (e.id ∉ ids)) t
    by_cases h : a.id ∈ ids <;>
      simp [List.filter_cons, h] at ih hle ⊢ <;>
      omega

/-- C7 (amended): `remove_from_queue` deletes exactly the entries whose
id is in the given set, preserving order; the computed removed count is
the number of matching entries; the count is reported only when it is
positive (silent when nothing was removed); and the concrete example:
removing `{A, C}` from a store `{A, B, C, D}` leaves `{B, D}` and
reports 2, removing an absent `{Z}` removes nothing and reports
nothing. -/
theorem C7_exact_idempotent_removal :
    (∀ (st : List Entry) (ids : List (List Char)),
      (remove_from_queue st ids).1 = st.filter (fun e => decide (e.id ∉ ids)) ∧
      (∀ e, e ∈ (remove_from_queue st ids).1 ↔ e ∈ st ∧ e.id ∉ ids) ∧
      (remove_from_queue st ids).2.1 =
        (st.filter (fun e => decide (e.id ∈ ids))).length ∧
      (remove_from_queue st ids).2.2 =
        (if 0 < (remove_from_queue st ids).2.1
         then some (remove_from_queue st ids).2.1 else Option.none)) ∧
    (remove_from_queue [mkE "A".toList, mkE "B".toList, mkE "C".toList,
        mkE "D".toList] ["A".toList, "C".toList]) =
      ([mkE "B".toList, mkE "D".toList], 2, some 2) ∧
    (remove_from_queue [mkE "A".toList, mkE "B".toList, mkE "C".toList,
        mkE "D".toList] ["Z".toList]) =
      ([mkE "A".toList, mkE "B".toList, mkE "C".toList, mkE "D".toList],
        0, Option.none) := by
  refine ⟨fun st ids => ⟨rfl, ?_, ?_, rfl⟩, by decide, by decide⟩
  · intro e
    simp [remove_from_queue, List.mem_filter]
  · exact length_sub_filter st ids

/- ---- C6 ---- -/

/-- C6: the age rule drops an item exactly when its `published` field is
present and nonempty, parses, and the parsed time is more than
`MAX_POST_AGE_DAYS` (7 days) before `now`; an item exactly
`MAX_POST_AGE_DAYS` old is kept, a missing `published` is kept, and an
unparseable `published` is kept (fail-open). -/
theorem C6_age_filter_boundary (parseDate : List Char → Option Int)
    (now : Int) (item : RawItem) :
    (is_post_too_old parseDate now item = true ↔
      item.published.getD [] ≠ [] ∧
      ∃ d, parseDate (item.published.getD []) = some d ∧
        d < now - (MAX_POST_AGE_DAYS : Int) * secPerDay) ∧
    (parseDate (item.published.getD []) =
        some (now - (MAX_POST_AGE_DAYS : Int) * secPerDay) →
      is_post_too_old parseDate now item = false) ∧
    (item.published = Option.none → is_post_too_old parseDate now item = false) ∧
    (parseDate (item.published.getD []) = Option.none →
      is_post_too_old parseDate now item = false) := by
  refine ⟨?_, ?_, ?_, ?_⟩
  · rw [is_post_too_old]
    by_cases he : (item.published.getD []).isEmpty
    · simp only [he, if_pos]
      simp only [List.isEmpty_iff] at he
      simp [he]
    · simp only [he, if_neg, Bool.false_eq_true]
      simp only [List.isEmpty_iff] at he
      cases hp : parseDate (item.published.getD []) with
      | none => simp [he, hp]
      | some d => simp [he, hp]
  · intro hp
    rw [is_post_too_old]
    by_cases he : (item.published.getD []).isEmpty
    · simp [he]
    · simp [he, hp]
  · intro hn
    rw [is_post_too_old, hn]
    rfl
  · intro hp
    rw [is_post_too_old]
    by_cases he : (item.published.getD []).isEmpty
    · simp [he]
    · simp [he, hp]

/-- Witness for C6 at a concrete boundary input: an item published
exactly `MAX_POST_AGE_DAYS` before `now` is kept. -/
theorem C6_age_filter_boundary_witness :
    (fun p => if p = "t".toList then (some 0 : Option Int) else Option.none)
        (({ itmA with published := some "t".toList } : RawItem).published.getD [])
      = some ((604800 : Int) - (MAX_POST_AGE_DAYS : Int) * secPerDay) ∧
    is_post_too_old
      (fun p => if p = "t".toList then (some 0 : Option Int) else Option.none)
      604800 { itmA with published := some "t".toList } = false :=
  ⟨by decide, (C6_age_filter_boundary _ _ _).2.1 (by decide)⟩

/- ---- stable sort lemmas for C5 and C1 ---- -/

theorem insertByScore_perm (e : Entry) (l : List Entry) :
    (insertByScore e l).Perm (e :: l) := by
  induction l with
  | nil => exact List.Perm.refl _
  | cons x xs ih =>
    rw [insertByScore]
    by_cases h : x.relevance_score < e.relevance_score
    · simp [h]
    · simp only [h, if_neg, if_false]
      exact (ih.cons x).trans (List.Perm.swap e x xs)

theorem sortFold_perm : ∀ (l acc : List Entry), (sortFold acc l).Perm (acc ++ l) := by
  intro l
  induction l with
  | nil => intro acc; simp [sortFold]
  | cons e es ih =>
    intro acc
    rw [sortFold]
    refine (ih _).trans ?_
    exact ((insertByScore_perm e acc).append_right es).trans List.perm_middle.symm

theorem pySortDesc_perm (l : List Entry) : (pySortDesc l).Perm l := by
  simpa using sortFold_perm l []

theorem mem_insertByScore {a e : Entry} {l : List Entry} :
    a ∈ insertByScore e l ↔ a = e ∨ a ∈ l := by
  rw [(insertByScore_perm e l).mem_iff]
  simp

theorem insertByScore_sorted {e : Entry} {l : List Entry}
    (h : SortedDesc l) : SortedDesc (insertByScore e l) := by
  induction l with
  | nil => simp [insertByScore, SortedDesc]
  | cons x xs ih =>
    rw [SortedDesc, List.pairwise_cons] at h
    rw [insertByScore]
    by_cases hc : x.relevance_score < e.relevance_score
    · simp only [hc, if_pos]
      rw [SortedDesc, List.pairwise_cons]
      constructor
      · intro b hb
        rcases List.mem_cons.mp hb with hb | hb
        · subst hb; omega
        · have := h.1 b hb; omega
      · rw [SortedDesc] at *; exact List.Pairwise.cons h.1 h.2
    · simp only [hc, if_neg, if_false]
      rw [SortedDesc, List.pairwise_cons]
      constructor
      · intro b hb
        rcases mem_insertByScore.mp hb with hb | hb
        · subst hb; omega
        · exact h.1 b hb
      · exact ih h.2

theorem sortFold_sorted : ∀ (l acc : List Entry),
    SortedDesc acc → SortedDesc (sortFold acc l) := by
  intro l
  induction l with
  | nil => intro acc h; exact h
  | cons e es ih =>
    intro acc h
    rw [sortFold]
    exact ih _ (insertByScore_sorted h)

theorem filter_insertByScore (s : Nat) {e : Entry} {l : List Entry}
    (h : SortedDesc l) :
    (insertByScore e l).filter (fun x => x.relevance_score == s) =
      if e.relevance_score == s
      then l.filter (fun x => x.relevance_score == s) ++ [e]
      else l.filter (fun x => x.relevance_score == s) := by
  induction l with
  | nil =>
    by_cases hs : e.relevance_score = s <;> simp [insertByScore, hs]
  | cons x xs ih =>
    rw [SortedDesc, List.pairwise_cons] at h
    rw [insertByScore]
    by_cases hc : x.relevance_score < e.relevance_score
    · simp only [hc, if_pos]
      by_cases hs : e.relevance_score = s
      · have hnone : (x :: xs).filter (fun y => y.relevance_score == s) = [] := by
          rw [List.filter_eq_nil_iff]
          intro b hb
          have hble : b.relevance_score ≤ x.relevance_score := by
            rcases List.mem_cons.mp hb with hb | hb
            · subst hb; omega
            · exact h.1 b hb
          simp only [beq_iff_eq]
          omega
        simp [hs, List.filter_cons, hnone]
      · have hxs : ¬ x.relevance_score = s → True := fun _ => trivial
        by_cases hx : x.relevance_score = s <;>
          simp [List.filter_cons, hs, hx]
    · simp only [hc, if_neg, if_false]
      rw [List.filter_cons, List.filter_cons]
      by_cases hx : x.relevance_score = s <;>
        by_cases hs : e.relevance_score = s <;>
        simp [hx, hs, ih h.2]

theorem filter_sortFold (s : Nat) : ∀ (l acc : List Entry),
    SortedDesc acc →
    (sortFold acc l).filter (fun x => x.relevance_score == s) =
      acc.filter (fun x => x.relevance_score == s) ++
        l.filter (fun x => x.relevance_score == s) := by
  intro l
  induction l with
  | nil => intro acc _; simp [sortFold]
  | cons e es ih =>
    intro acc h
    rw [sortFold, ih _ (insertByScore_sorted h), filter_insertByScore s h]
    by_cases hs : e.relevance_score = s <;>
      simp [List.filter_cons, hs]

theorem filter_pySortDesc (s : Nat) (l : List Entry) :
    (pySortDesc l).filter (fun x => x.relevance_score == s) =
      l.filter (fun x => x.relevance_score == s) := by
  simpa using filter_sortFold s l [] (by simp [SortedDesc])

theorem pySortDesc_sorted (l : List Entry) : SortedDesc (pySortDesc l) :=
  sortFold_sorted l [] (by simp [SortedDesc])

/- ---- C5 ---- -/

/-- C5: after every enqueue call the persisted store is sorted by
`relevance_score` descending, and the sort is stable: for every score,
the entries having that score appear in exactly their pre-sort order
(prior store order followed by the newly appended entries); in
particular items with scores `[2, 5, 2, 0]` enqueued in that order into
an empty store yield store order `[5, 2 (first), 2 (second), 0]`. -/
theorem C5_stable_priority_order :
    (∀ (queue : List Entry) (processed : List (List Char))
       (items : List RawItem) (now : List Char),
      SortedDesc (add_to_queue queue processed items now).1 ∧
      ∀ s : Nat,
        (add_to_queue queue processed items now).1.filter
            (fun e => e.relevance_score == s) =
          (queue ++ (addLoop (queue.map (·.id)) processed now items).1).filter
            (fun e => e.relevance_score == s)) ∧
    ((add_to_queue [] [] [itmA, itmB, itmC, itmD] []).1.map
        (fun e => (e.id, e.relevance_score)) =
      [("i2".toList, 5), ("i1".toList, 2), ("i3".toList, 2),
       ("i4".toList, 0)]) := by
  refine ⟨fun queue processed items now => ⟨?_, fun s => ?_⟩, by decide⟩
  · exact pySortDesc_sorted _
  · exact filter_pySortDesc s _

/- ---- C1 ---- -/

theorem addLoop_ids (existing processed : List (List Char)) (now : List Char) :
    ∀ items : List RawItem,
    ((addLoop existing processed now items).1.map (·.id) =
      (items.filter (fun it =>
        !(decide (computedId it ∈ existing) || decide (computedId it ∈ processed)))).map
        computedId) ∧
    (addLoop existing processed now items).2 =
      (items.filter (fun it =>
        !(decide (computedId it ∈ existing) || decide (computedId it ∈ processed)))).length := by
  intro items
  induction items with
  | nil => exact ⟨rfl, rfl⟩
  | cons it rest ih =>
    rw [addLoop]
    by_cases h : computedId it ∈ existing ∨ computedId it ∈ processed
    · have hb : (!(decide (computedId it ∈ existing) ||
          decide (computedId it ∈ processed))) = false := by
        rcases h with h | h <;> simp [h]
      simp only [h, if_pos, List.filter_cons, hb]
      exact ih
    · have hb : (!(decide (computedId it ∈ existing) ||
          decide (computedId it ∈ processed))) = true := by
        push_neg at h
        simp [h.1, h.2]
      simp only [h, if_neg, if_false, List.filter_cons, hb, if_true,
        List.map_cons, List.length_cons]
      refine ⟨?_, by rw [ih.2]⟩
      rw [ih.1]
      rfl

/-- C1 (amended): provided the candidate items' computed ids are
pairwise distinct within the call (the loop computes `existing_ids`
once, so two same-id candidates in one call are both added) and the
initial store satisfies the uniqueness invariant, the store after
enqueue has at most one entry per id; an id already in the store at
call time or in the processed set is never added; and `count_added` is
exactly the number of non-skipped candidates. -/
theorem C1_dedup_uniqueness (queue : List Entry) (processed : List (List Char))
    (items : List RawItem) (now : List Char)
    (h1 : (queue.map (·.id)).Nodup) (h2 : (items.map computedId).Nodup) :
    ((add_to_queue queue processed items now).1.map (·.id)).Nodup ∧
    (∀ x, (x ∈ queue.map (·.id) ∨ x ∈ processed) →
      x ∉ (addLoop (queue.map (·.id)) processed now items).1.map (·.id)) ∧
    (add_to_queue queue processed items now).2 =
      (items.filter (fun it =>
        !(decide (computedId it ∈ queue.map (·.id)) ||
          decide (computedId it ∈ processed)))).length := by
  have hids := addLoop_ids (queue.map (·.id)) processed now items
  have hnotin : ∀ x, (x ∈ queue.map (·.id) ∨ x ∈ processed) →
      x ∉ (addLoop (queue.map (·.id)) processed now items).1.map (·.id) := by
    intro x hx hmem
    rw [hids.1] at hmem
    rcases List.mem_map.mp hmem with ⟨it, hit, hxid⟩
    have := List.of_mem_filter hit
    rcases hx with hx | hx <;> subst hxid <;> simp [hx] at this
  refine ⟨?_, hnotin, hids.2⟩
  have hperm : ((add_to_queue queue processed items now).1.map (·.id)).Perm
      ((queue ++ (addLoop (queue.map (·.id)) processed now items).1).map (·.id)) :=
    (pySortDesc_perm _).map _
  rw [hperm.nodup_iff, List.map_append, List.nodup_append]
  refine ⟨h1, ?_, ?_⟩
  · rw [hids.1]
    exact h2.sublist (List.Sublist.map computedId (List.filter_sublist items))
  · intro x hx
    exact hnotin x (Or.inl hx)

/-- C1 counterexample: two candidates with the same id `x` in one call
are both added (the claim's "at most one QueueEntry per id" fails), and
both are counted in `count_added`. -/
theorem C1_claim_counterexample :
    ((add_to_queue [] [] [mkItemT "x".toList "a".toList,
        mkItemT "x".toList "b".toList] []).1.map (·.id)) =
      ["x".toList, "x".toList] ∧
    ¬ ((add_to_queue [] [] [mkItemT "x".toList "a".toList,
        mkItemT "x".toList "b".toList] []).1.map (·.id)).Nodup ∧
    (add_to_queue [] [] [mkItemT "x".toList "a".toList,
        mkItemT "x".toList "b".toList] []).2 = 2 := by
  exact ⟨by decide, by decide, by decide⟩

/-- Witness for C1 at a concrete input: one candidate already processed
is skipped, a fresh one is added once. -/
theorem C1_dedup_uniqueness_witness :
    (([mkE "q".toList] : List Entry).map (·.id)).Nodup ∧
    (([mkItemT "q".toList "t".toList, mkItemT "n".toList "u".toList].map
        computedId).Nodup) ∧
    (((add_to_queue [mkE "q".toList] ["p".toList]
        [mkItemT "q".toList "t".toList, mkItemT "n".toList "u".toList]
        []).1.map (·.id)).Nodup ∧
      (∀ x, (x ∈ ([mkE "q".toList] : List Entry).map (·.id) ∨ x ∈ ["p".toList]) →
        x ∉ (addLoop (([mkE "q".toList] : List Entry).map (·.id)) ["p".toList] []
          [mkItemT "q".toList "t".toList, mkItemT "n".toList "u".toList]).1.map (·.id)) ∧
      (add_to_queue [mkE "q".toList] ["p".toList]
          [mkItemT "q".toList "t".toList, mkItemT "n".toList "u".toList] []).2 =
        ([mkItemT "q".toList "t".toList, mkItemT "n".toList "u".toList].filter
          (fun it =>
            !(decide (computedId it ∈ ([mkE "q".toList] : List Entry).map (·.id)) ||
              decide (computedId it ∈ (["p".toList] : List (List Char)))))).length) :=
  ⟨by decide, by decide,
    C1_dedup_uniqueness [mkE "q".toList] ["p".toList]
      [mkItemT "q".toList "t".toList, mkItemT "n".toList "u".toList] []
      (by decide) (by decide)⟩

/- ---- C3 ---- -/

theorem pyListIndex_ok {α : Type} (l : List α) (i : Int)
    (h1 : -(l.length : Int) ≤ i) (h2 : i < (l.length : Int)) :
    ∃ a, pyListIndex l i = .ok a := by
  by_cases hneg : i < 0
  · have hj : ¬ ((l.length : Int) + i < 0) := by omega
    have hlt : ((l.length : Int) + i).toNat < l.length := by omega
    cases hg : l[((l.length : Int) + i).toNat]? with
    | none =>
      rw [List.getElem?_eq_none_iff] at hg
      omega
    | some a => exact ⟨a, by simp [pyListIndex, hneg, hj, hg]⟩
  · have hlt : i.toNat < l.length := by omega
    have hj : ¬ (i < 0) := hneg
    cases hg : l[i.toNat]? with
    | none =>
      rw [List.getElem?_eq_none_iff] at hg
      omega
    | some a => exact ⟨a, by simp [pyListIndex, hneg, hg]⟩

theorem verdictStep_safe {α : Type} (batch : List α)
    (kvs : List (List Char × PyVal))
    (h : safeV batch.length (.dict kvs) = true) :
    verdictStep batch kvs = .ok (honorV batch (.dict kvs)) := by
  cases hidx : (pyGet kvs (['i', 'n', 'd', 'e', 'x'] : List Char)).getD PyVal.none with
  | none => simp [verdictStep, honorV, hidx, isIntLike]
  | int i =>
    simp [safeV, hidx] at h
    by_cases hge : (batch.length : Int) ≤ i
    · have hnlt : ¬ (i < (batch.length : Int)) := by omega
      simp [verdictStep, honorV, hidx, isIntLike, hge, hnlt]
    · have hlt : i < (batch.length : Int) := by omega
      by_cases htr : pyTruthy ((pyGet kvs
          (['i', 's', '_', 'r', 'e', 'l', 'e', 'v', 'a', 'n', 't'] :
            List Char)).getD (.bool false)) = true
      · obtain ⟨a, ha⟩ := pyListIndex_ok batch i h hlt
        simp [verdictStep, honorV, hidx, isIntLike, hge, hlt, htr, ha]
      · simp [verdictStep, honorV, hidx, isIntLike, hge, hlt, htr]
  | bool bv =>
    by_cases hge : (batch.length : Int) ≤ (if bv then (1 : Int) else 0)
    · have hnlt : ¬ ((if bv then (1 : Int) else 0) < (batch.length : Int)) := by
        omega
      simp [verdictStep, honorV, hidx, isIntLike, hge, hnlt]
    · have hlt : (if bv then (1 : Int) else 0) < (batch.length : Int) := by omega
      have hlow : -(batch.length : Int) ≤ (if bv then (1 : Int) else 0) := by
        by_cases hbv : bv
        · rw [if_pos hbv]; omega
        · rw [if_neg hbv]; omega
      by_cases htr : pyTruthy ((pyGet kvs
          (['i', 's', '_', 'r', 'e', 'l', 'e', 'v', 'a', 'n', 't'] :
            List Char)).getD (.bool false)) = true
      · obtain ⟨a, ha⟩ := pyListIndex_ok batch _ hlow hlt
        simp [verdictStep, honorV, hidx, isIntLike, hge, hlt, htr, ha]
      · simp [verdictStep, honorV, hidx, isIntLike, hge, hlt, htr]
  | str s => simp [safeV, hidx] at h
  | list xs => simp [safeV, hidx] at h
  | dict kvs2 => simp [safeV, hidx] at h

/-- C3 (amended): over a chunk, a verdict is honored exactly when it is
a dict whose `index` is an int (or bool) in `[-len, len)` (a negative
in-range index selects from the end of the chunk, as Python subscripts
do) and whose `is_relevant` is truthy; dicts with a missing `index` or
an integer `index ≥ len`, and non-dict entries, are dropped
individually; the hypothesis excludes the verdicts on which the loop
raises (a string/list/dict `index` raises TypeError at the length
comparison, an honored-path int below `-len` raises IndexError),
aborting the whole chunk. -/
theorem C3_verdict_partial_tolerance {α : Type} (results : List PyVal)
    (batch : List α) (h : ∀ v ∈ results, safeV batch.length v = true) :
    processBatchResults results batch =
      .ok (results.filterMap (honorV batch)) := by
  induction results with
  | nil => rfl
  | cons r rest ih =>
    have hr := h r (List.mem_cons_self r rest)
    have hrest : ∀ v ∈ rest, safeV batch.length v = true :=
      fun v hv => h v (List.mem_cons_of_mem _ hv)
    cases r with
    | dict kvs =>
      rw [processBatchResults, verdictStep_safe batch kvs hr, ih hrest,
        List.filterMap_cons]
      cases honorV batch (.dict kvs) <;> rfl
    | none => simpa [processBatchResults, List.filterMap_cons, honorV] using ih hrest
    | bool bv => simpa [processBatchResults, List.filterMap_cons, honorV] using ih hrest
    | int i => simpa [processBatchResults, List.filterMap_cons, honorV] using ih hrest
    | str s => simpa [processBatchResults, List.filterMap_cons, honorV] using ih hrest
    | list xs => simpa [processBatchResults, List.filterMap_cons, honorV] using ih hrest

/-- C3 counterexample: on a two-item chunk, the verdict
`{index: -1, is_relevant: true}` is honored against the last item
rather than dropped, and the verdict `{index: "0"}` raises (TypeError)
rather than being dropped individually. -/
theorem C3_claim_counterexample :
    processBatchResults
        [PyVal.dict [("index".toList, PyVal.int (-1)),
          ("is_relevant".toList, PyVal.bool true)]] [itmA, itmB] =
      .ok [{ item := itmB, reason := PyVal.str [],
             reply_draft := PyVal.str [] }] ∧
    processBatchResults
        [PyVal.dict [("index".toList, PyVal.str "0".toList)]] [itmA, itmB] =
      .error .typeError :=
  ⟨rfl, rfl⟩

/-- Witness for C3 at a concrete input: a well-formed verdict, a
non-dict entry and an out-of-range dict are processed with the honored
item extracted and the malformed ones dropped individually. -/
theorem C3_verdict_partial_tolerance_witness :
    (∀ v ∈ [PyVal.dict [("index".toList, PyVal.int 0),
        ("is_relevant".toList, PyVal.bool true)], PyVal.int 7,
        PyVal.dict [("index".toList, PyVal.int 5)]],
      safeV ([itmA, itmB] : List RawItem).length v = true) ∧
    processBatchResults
        [PyVal.dict [("index".toList, PyVal.int 0),
          ("is_relevant".toList, PyVal.bool true)], PyVal.int 7,
          PyVal.dict [("index".toList, PyVal.int 5)]] [itmA, itmB] =
      .ok ([PyVal.dict [("index".toList, PyVal.int 0),
          ("is_relevant".toList, PyVal.bool true)], PyVal.int 7,
          PyVal.dict [("index".toList, PyVal.int 5)]].filterMap
        (honorV [itmA, itmB])) :=
  ⟨by decide, C3_verdict_partial_tolerance _ _ (by decide)⟩

/- ---- C4 ---- -/

theorem analyzeBatchGo_ds (maxR : Nat) (env : AEnv) (items : List RawItem)
    (f : Nat) (st : AState) (rc : Nat) (hf : 1 ≤ f)
    (hflag : st.gemini_exhausted = true) (hkey : env.deepseekKey = true)
    (hitems : items ≠ []) :
    analyzeBatchGo maxR env items f st rc =
      ((match env.dsCall st.dCalls with
        | .ok t => parse_batch_response t
        | _ => []),
       { st with current_provider := "deepseek".toList,
                 dCalls := st.dCalls + 1 }) := by
  cases f with
  | zero => omega
  | succ f =>
    rw [analyzeBatchGo]
    have hine : items.isEmpty = false := by
      simpa [List.isEmpty_iff] using hitems
    simp only [hine, Bool.false_eq_true, if_false, hflag, hkey, Bool.true_or,
      Bool.not_true, Bool.and_false, if_true]
    cases env.dsCall st.dCalls <;> simp

theorem analyzeBatchGo_quota_run (maxR : Nat) (env : AEnv)
    (items : List RawItem) (hitems : items ≠ []) (hgm : env.geminiKey = true)
    (hq : ∀ n, env.gmCall n = .quota) :
    ∀ (f rc : Nat) (st : AState), st.gemini_exhausted = false → rc ≤ maxR →
    maxR - rc + 2 ≤ f →
    analyzeBatchGo maxR env items f st rc =
      ((if env.deepseekKey then
          (match env.dsCall st.dCalls with
           | .ok t => parse_batch_response t
           | _ => ([] : List Json))
        else []),
       { gemini_exhausted := env.deepseekKey,
         current_provider :=
           if env.deepseekKey then "deepseek".toList else "gemini".toList,
         gCalls := st.gCalls + (maxR - rc) + 1,
         dCalls := st.dCalls + (if env.deepseekKey then 1 else 0),
         waits := st.waits ++
           (List.range' (rc + 1) (maxR - rc)).map (fun k => 10 * k) }) := by
  intro f
  induction f with
  | zero => intro rc st _ _ hf; omega
  | succ f ih =>
    intro rc st hflag hrc hf
    obtain ⟨fl, pr, g, d, w⟩ := st
    simp only at hflag
    subst hflag
    have hine : items.isEmpty = false := by
      simpa [List.isEmpty_iff] using hitems
    rw [analyzeBatchGo]
    simp only [hine, Bool.false_eq_true, if_false, hgm, Bool.not_true,
      Bool.false_or, Bool.false_and, Bool.or_false, if_true]
    rw [hq g]
    by_cases hrlt : rc < maxR
    · simp only [hrlt, if_pos]
      rw [ih (rc + 1) _ rfl (by omega) (by omega)]
      have hgc : g + 1 + (maxR - (rc + 1)) + 1 = g + (maxR - rc) + 1 := by omega
      have hwl : (w ++ [10 * (rc + 1)]) ++
            (List.range' (rc + 2) (maxR - (rc + 1))).map (fun k => 10 * k) =
          w ++ (List.range' (rc + 1) (maxR - rc)).map (fun k => 10 * k) := by
        have hn : maxR - rc = (maxR - (rc + 1)) + 1 := by omega
        rw [hn, List.range'_succ, List.map_cons, List.append_assoc]
        rfl
      simp only [hgc, hwl]
    · have hz : maxR - rc = 0 := by omega
      simp only [hrlt, if_false]
      by_cases hds : env.deepseekKey
      · simp only [hds, if_pos, if_true]
        rw [analyzeBatchGo_ds maxR env items f _ 0 (by omega) rfl hds hitems]
        simp [hz, List.range']
      · simp only [hds, if_neg, if_false, Bool.false_eq_true]
        simp [hz, List.range', hds]

theorem analyzeBatchGo_flag_monotone (maxR : Nat) (env : AEnv)
    (items : List RawItem) :
    ∀ (f : Nat) (st : AState) (rc : Nat), st.gemini_exhausted = true →
    ((analyzeBatchGo maxR env items f st rc).2).gemini_exhausted = true := by
  intro f st rc hflag
  cases f with
  | zero => simpa [analyzeBatchGo] using hflag
  | succ f =>
    rw [analyzeBatchGo]
    by_cases hi : items.isEmpty
    · simp [hi, hflag]
    · by_cases hds : env.deepseekKey
      · simp only [hi, Bool.false_eq_true, if_false, hflag, Bool.true_or,
          hds, Bool.not_true, Bool.and_false, if_true]
        cases env.dsCall st.dCalls <;> simp [hflag]
      · simp [hi, hflag, hds]

/-- C4 (amended): when every primary attempt reports a quota/rate-limit
error, `analyze_batch` makes exactly `ceiling + 1` primary attempts (the
initial attempt plus `ceiling` retries, the code's retry ceiling being
`MAX_RETRIES`), waiting the increasing backoff `10 × k` before the k-th
retry, then makes exactly one secondary attempt, and the
primary-exhausted flag becomes set and stays set through every later
call; if the secondary has no credential, the chunk is skipped with
zero verdicts after the same `ceiling + 1` primary attempts and the
flag is not set. -/
theorem C4_quota_failover :
    (∀ (maxR : Nat) (env : AEnv) (items : List RawItem) (st : AState),
      items ≠ [] → st.gemini_exhausted = false → env.geminiKey = true →
      env.deepseekKey = true → (∀ n, env.gmCall n = .quota) →
      (analyzeBatchGen maxR env items st 0).2.gCalls = st.gCalls + maxR + 1 ∧
      (analyzeBatchGen maxR env items st 0).2.waits =
        st.waits ++ (List.range' 1 maxR).map (fun k => 10 * k) ∧
      (analyzeBatchGen maxR env items st 0).2.dCalls = st.dCalls + 1 ∧
      (analyzeBatchGen maxR env items st 0).2.gemini_exhausted = true ∧
      (analyzeBatchGen maxR env items st 0).1 =
        (match env.dsCall st.dCalls with
         | .ok t => parse_batch_response t
         | _ => [])) ∧
    (∀ (maxR : Nat) (env : AEnv) (items : List RawItem) (st : AState),
      items ≠ [] → st.gemini_exhausted = false → env.geminiKey = true →
      env.deepseekKey = false → (∀ n, env.gmCall n = .quota) →
      (analyzeBatchGen maxR env items st 0).1 = [] ∧
      (analyzeBatchGen maxR env items st 0).2.gCalls = st.gCalls + maxR + 1 ∧
      (analyzeBatchGen maxR env items st 0).2.dCalls = st.dCalls ∧
      (analyzeBatchGen maxR env items st 0).2.gemini_exhausted = false) ∧
    (∀ (maxR : Nat) (env : AEnv) (items : List RawItem) (st : AState) (rc : Nat),
      st.gemini_exhausted = true →
      (analyzeBatchGen maxR env items st rc).2.gemini_exhausted = true) := by
  refine ⟨?_, ?_, ?_⟩
  · intro maxR env items st hitems hflag hgm hds hq
    rw [analyzeBatchGen,
      analyzeBatchGo_quota_run maxR env items hitems hgm hq (maxR + 2) 0 st hflag
        (by omega) (by omega)]
    simp [hds]
  · intro maxR env items st hitems hflag hgm hds hq
    rw [analyzeBatchGen,
      analyzeBatchGo_quota_run maxR env items hitems hgm hq (maxR + 2) 0 st hflag
        (by omega) (by omega)]
    simp [hds]
  · intro maxR env items st rc hflag
    exact analyzeBatchGo_flag_monotone maxR env items (maxR + 2) st rc hflag

/-- C4 counterexample: with the code's retry ceiling `MAX_RETRIES = 1`,
an all-quota run makes 2 primary attempts, not the retry-ceiling
number. -/
theorem C4_claim_counterexample :
    (analyze_batch quotaEnv [itmA] st0).2.gCalls = 2 ∧ MAX_RETRIES = 1 ∧
    (analyze_batch quotaEnv [itmA] st0).2.gCalls ≠ MAX_RETRIES :=
  ⟨rfl, rfl, by decide⟩

/-- Witness for C4 at a concrete input: the all-quota environment with
both credentials present. -/
theorem C4_quota_failover_witness :
    (([itmA] : List RawItem) ≠ [] ∧ st0.gemini_exhausted = false ∧
      quotaEnv.geminiKey = true ∧ quotaEnv.deepseekKey = true ∧
      (∀ n, quotaEnv.gmCall n = .quota)) ∧
    ((analyzeBatchGen MAX_RETRIES quotaEnv [itmA] st0 0).2.gCalls =
        st0.gCalls + MAX_RETRIES + 1 ∧
      (analyzeBatchGen MAX_RETRIES quotaEnv [itmA] st0 0).2.waits =
        st0.waits ++ (List.range' 1 MAX_RETRIES).map (fun k => 10 * k) ∧
      (analyzeBatchGen MAX_RETRIES quotaEnv [itmA] st0 0).2.dCalls =
        st0.dCalls + 1 ∧
      (analyzeBatchGen MAX_RETRIES quotaEnv [itmA] st0 0).2.gemini_exhausted =
        true ∧
      (analyzeBatchGen MAX_RETRIES quotaEnv [itmA] st0 0).1 =
        (match quotaEnv.dsCall st0.dCalls with
         | .ok t => parse_batch_response t
         | _ => [])) :=
  ⟨⟨by simp, rfl, rfl, rfl, fun _ => rfl⟩,
    C4_quota_failover.1 MAX_RETRIES quotaEnv [itmA] st0 (by simp) rfl rfl rfl
      (fun _ => rfl)⟩

/- ---- C2 ---- -/

theorem pyAdd_mem (l : List (List Char)) (x y : List Char) :
    y ∈ pyAdd l x ↔ y ∈ l ∨ y = x := by
  rw [pyAdd]
  by_cases h : x ∈ l
  · simp only [h, if_pos]
    constructor
    · exact Or.inl
    · rintro (hy | rfl)
      · exact hy
      · exact h
  · simp [h]

theorem foldl_pyAdd_mem (y : List Char) :
    ∀ (ids l : List (List Char)), y ∈ ids.foldl pyAdd l ↔ y ∈ l ∨ y ∈ ids := by
  intro ids
  induction ids with
  | nil => intro l; simp
  | cons x rest ih =>
    intro l
    rw [List.foldl_cons, ih, pyAdd_mem]
    constructor
    · rintro ((hy | hy) | hy)
      · exact Or.inl hy
      · rw [hy]; exact Or.inr (List.mem_cons_self _ _)
      · exact Or.inr (List.mem_cons_of_mem x hy)
    · rintro (hy | hy)
      · exact Or.inl (Or.inl hy)
      · rcases List.mem_cons.mp hy with hy | hy
        · exact Or.inl (Or.inr hy)
        · exact Or.inr hy

theorem chunkGo_flatten {α : Type} (n : Nat) (hn : 1 ≤ n) :
    ∀ (f : Nat) (l : List α), l.length ≤ f → (chunkGo n f l).flatten = l := by
  intro f
  induction f with
  | zero =>
    intro l hl
    have : l = [] := List.length_eq_zero.mp (by omega)
    subst this
    rfl
  | succ f ih =>
    intro l hl
    rw [chunkGo]
    by_cases he : l.isEmpty
    · rw [List.isEmpty_iff] at he
      simp [he]
    · simp only [he, Bool.false_eq_true, if_false, List.flatten_cons]
      rw [ih (l.drop n) (by
        rw [List.length_drop]
        have : l.length ≠ 0 := by
          simpa [List.isEmpty_iff, ← List.length_eq_zero] using he
        omega)]
      exact List.take_append_drop n l

theorem chunk_list_flatten {α : Type} (l : List α) (n : Nat) (hn : 1 ≤ n) :
    (chunk_list l n).flatten = l :=
  chunkGo_flatten n hn l.length l (Nat.le_refl _)

theorem chunk_list_ne_nil {α : Type} (l : List α) (n : Nat) (hl : l ≠ []) :
    chunk_list l n ≠ [] := by
  rw [chunk_list]
  cases l with
  | nil => exact absurd rfl hl
  | cons a t =>
    show chunkGo n (t.length + 1) (a :: t) ≠ []
    rw [chunkGo]
    simp

theorem mem_runIds {e : Entry} {bs : List (List Entry)} {b : List Entry}
    (hb : b ∈ bs) (he : e ∈ b) (hne : e.id ≠ []) : e.id ∈ runIds bs := by
  rw [runIds, List.mem_flatten]
  refine ⟨(b.filter (fun x => !x.id.isEmpty)).map (·.id), ?_, ?_⟩
  · exact List.mem_map_of_mem _ hb
  · refine List.mem_map_of_mem _ ?_
    refine List.mem_filter.mpr ⟨he, ?_⟩
    simpa [List.isEmpty_iff] using hne

theorem procBatches_parts (oracle : Nat → List PyVal) :
    ∀ (bs : List (List Entry)) (bIdx : Nat) (ps ck pids : List (List Char))
      (rel : List (Analyzed Entry))
      (out : List (List Char) × List (List Char) × List (List Char) ×
        List (Analyzed Entry)),
      procBatches oracle bIdx bs ps ck pids rel = .ok out →
      (out.2.2.1 = pids ++ runIds bs) ∧
      (∀ x, x ∈ out.1 ↔ x ∈ ps ∨ x ∈ runIds bs) ∧
      (bs = [] → out.1 = ps ∧ out.2.1 = ck) ∧
      (bs ≠ [] → out.2.1 = capSave out.1) := by
  intro bs
  induction bs with
  | nil =>
    intro bIdx ps ck pids rel out h
    rw [procBatches] at h
    cases h
    refine ⟨by simp [runIds], by simp [runIds], fun _ => ⟨rfl, rfl⟩, ?_⟩
    intro h; exact absurd rfl h
  | cons b rest ih =>
    intro bIdx ps ck pids rel out h
    rw [procBatches] at h
    cases hres : processBatchResults (oracle bIdx) b with
    | error e => rw [hres] at h; cases h
    | ok found =>
      rw [hres] at h
      have hIH := ih (bIdx + 1) _ _ _ _ out h
      have hruncons : runIds (b :: rest) =
          ((b.filter (fun e => !e.id.isEmpty)).map (·.id)) ++ runIds rest := by
        simp [runIds]
      refine ⟨?_, ?_, ?_, ?_⟩
      · rw [hIH.1, hruncons, List.append_assoc]
      · intro x
        rw [hIH.2.1 x, foldl_pyAdd_mem, hruncons]
        simp only [List.mem_append]
        tauto
      · intro hcons; cases hcons
      · intro _
        cases hre : rest.isEmpty
        · have hrne : rest ≠ [] := by
            simpa [List.isEmpty_iff] using hre
          exact hIH.2.2.2 hrne
        · have hr : rest = [] := List.isEmpty_iff.mp hre
          subst hr
          have := hIH.2.2.1 rfl
          rw [this.2, this.1]

/-- C2 (amended): in every run that completes, every item of the
processed slice with a nonempty id — including every item of a chunk
whose classification yielded zero verdicts — IS recorded in the
processed accumulator, removed from the store by the final
dequeue-acknowledge, and present in the saved checkpoint (as long as
the processed set is within the checkpoint cap). -/
theorem C2_failed_chunks_still_checkpointed (queue0 : List Entry)
    (processed0 : List (List Char)) (oracle : Nat → List PyVal)
    (out : MainOut) (hok : mainRun queue0 processed0 oracle = .ok out) :
    ∀ e ∈ queue0.take ITEMS_PER_RUN, e.id ≠ [] →
      e.id ∈ out.processedItemIds ∧
      out.finalQueue =
        queue0.filter (fun x => decide (x.id ∉ out.processedItemIds)) ∧
      e.id ∉ out.finalQueue.map (·.id) ∧
      (out.processedSet.length ≤ MAX_PROCESSED_POSTS →
        e.id ∈ out.checkpoint) := by
  intro e he hne
  have hitems : queue0.take ITEMS_PER_RUN ≠ [] := by
    intro hEq
    rw [hEq] at he
    cases he
  have hine : (queue0.take ITEMS_PER_RUN).isEmpty = false := by
    simpa [List.isEmpty_iff] using hitems
  rw [mainRun] at hok
  simp only [hine, Bool.false_eq_true, if_false] at hok
  cases hproc : procBatches oracle 0
      (chunk_list (queue0.take ITEMS_PER_RUN) BATCH_SIZE) processed0
      processed0 [] [] with
  | error err => rw [hproc] at hok; cases hok
  | ok quad =>
    obtain ⟨ps, ck, pids, rel⟩ := quad
    rw [hproc] at hok
    have hout := (Except.ok.injEq _ _ ).mp hok
    subst hout
    have hparts := procBatches_parts oracle _ 0 processed0 processed0 [] []
      (ps, ck, pids, rel) hproc
    have hchunksne : chunk_list (queue0.take ITEMS_PER_RUN) BATCH_SIZE ≠ [] :=
      chunk_list_ne_nil _ _ hitems
    have heb : ∃ b ∈ chunk_list (queue0.take ITEMS_PER_RUN) BATCH_SIZE,
        e ∈ b := by
      rw [← List.mem_flatten,
        chunk_list_flatten (queue0.take ITEMS_PER_RUN) BATCH_SIZE (by decide)]
      exact he
    obtain ⟨b, hbmem, hebmem⟩ := heb
    have hidrun : e.id ∈ runIds (chunk_list (queue0.take ITEMS_PER_RUN)
        BATCH_SIZE) := mem_runIds hbmem hebmem hne
    have hpids : e.id ∈ pids := by
      have := hparts.1
      simp only at this
      rw [this]
      simp [hidrun]
    refine ⟨hpids, rfl, ?_, ?_⟩
    · intro hmem
      rcases List.mem_map.mp hmem with ⟨x, hx, hxid⟩
      have := (List.mem_filter.mp hx).2
      rw [hxid] at this
      simp [hpids] at this
    · intro hcap
      have hps : e.id ∈ ps := by
        rw [hparts.2.1 e.id]
        exact Or.inr hidrun
      have hck : ck = capSave ps := hparts.2.2.2 hchunksne
      simp only at hcap
      rw [hck, capSave, Nat.sub_eq_zero_of_le hcap, List.drop_zero]
      exact hps

/-- C2 counterexample: a run whose single chunk yields zero verdicts
still records the item id in the checkpoint and removes the entry from
the store — the entry does not remain queued. -/
theorem C2_claim_counterexample :
    mainRun [mkE "a".toList] [] (fun _ => []) =
      .ok { finalQueue := [], processedSet := ["a".toList],
            checkpoint := ["a".toList],
            processedItemIds := ["a".toList], relevant := [] } := by
  rfl

/-- Witness for C2 at a concrete completed run with a zero-verdict
chunk. -/
theorem C2_failed_chunks_still_checkpointed_witness :
    (mainRun [mkE "b".toList] [] (fun _ => []) =
      .ok { finalQueue := [], processedSet := ["b".toList],
            checkpoint := ["b".toList],
            processedItemIds := ["b".toList], relevant := [] }) ∧
    (mkE "b".toList ∈ ([mkE "b".toList] : List Entry).take ITEMS_PER_RUN) ∧
    ((mkE "b".toList).id ≠ []) ∧
    ((mkE "b".toList).id ∈
        (MainOut.mk [] ["b".toList] ["b".toList] ["b".toList]
          []).processedItemIds ∧
      (MainOut.mk [] ["b".toList] ["b".toList] ["b".toList] []).finalQueue =
        ([mkE "b".toList] : List Entry).filter (fun x =>
          decide (x.id ∉ (MainOut.mk [] ["b".toList] ["b".toList] ["b".toList]
            []).processedItemIds)) ∧
      (mkE "b".toList).id ∉
        (MainOut.mk [] ["b".toList] ["b".toList] ["b".toList]
          []).finalQueue.map (·.id) ∧
      ((MainOut.mk [] ["b".toList] ["b".toList] ["b".toList]
          []).processedSet.length ≤ MAX_PROCESSED_POSTS →
        (mkE "b".toList).id ∈
          (MainOut.mk [] ["b".toList] ["b".toList] ["b".toList]
            []).checkpoint)) :=
  ⟨rfl, by decide, by decide,
    C2_failed_chunks_still_checkpointed [mkE "b".toList] [] (fun _ => []) _
      rfl (mkE "b".toList) (by decide) (by decide)⟩

/- ---- C9: lemmas on the fence-stripping scanner ---- -/

theorem length_dropWhile_le (p : Char → Bool) (l : List Char) :
    (l.dropWhile p).length ≤ l.length := by
  induction l with
  | nil => simp
  | cons a t ih =>
    rw [List.dropWhile_cons]
    by_cases h : p a = true
    · simp only [h, if_pos]
      exact Nat.le_trans ih (Nat.le_succ _)
    · simp [h]

theorem subPatGo_fuel (pat : List Char) :
    ∀ (f1 : Nat), ∀ (l : List Char) (f2 : Nat), l.length ≤ f1 → l.length ≤ f2 →
      subPatGo pat f1 l = subPatGo pat f2 l := by
  intro f1
  induction f1 with
  | zero =>
    intro l f2 h1 _
    have : l = [] := List.length_eq_zero.mp (by omega)
    subst this
    cases f2 <;> rfl
  | succ f1 ih =>
    intro l f2 h1 h2
    cases l with
    | nil => cases f2 <;> rfl
    | cons a t =>
      cases f2 with
      | zero => simp at h2
      | succ f2 =>
        rw [subPatGo, subPatGo]
        by_cases hc : (!pat.isEmpty && startsWith pat (a :: t)) = true
        · simp only [hc, if_pos]
          have hplen : 1 ≤ pat.length := by
            cases pat with
            | nil => simp at hc
            | cons p ps => simp
          have hlen : (List.dropWhile pyWs (List.drop pat.length (a :: t))).length ≤
              t.length := by
            calc (List.dropWhile pyWs (List.drop pat.length (a :: t))).length
                ≤ (List.drop pat.length (a :: t)).length :=
                  length_dropWhile_le _ _
              _ = (a :: t).length - pat.length := by rw [List.length_drop]
              _ ≤ t.length := by simp [List.length_cons]; omega
          exact ih _ f2 (by simp at h1; omega) (by simp at h2; omega)
        · simp only [hc, if_neg, if_false, Bool.false_eq_true]
          rw [ih t f2 (by simp at h1; omega) (by simp at h2; omega)]

theorem subPat_nil (pat : List Char) : subPat pat [] = [] := rfl

theorem subPat_cons_match {pat : List Char} {a : Char} {t : List Char}
    (hc : (!pat.isEmpty && startsWith pat (a :: t)) = true) :
    subPat pat (a :: t) =
      subPat pat (List.dropWhile pyWs (List.drop pat.length (a :: t))) := by
  have hplen : 1 ≤ pat.length := by
    cases pat with
    | nil => simp at hc
    | cons p ps => simp
  show subPatGo pat (t.length + 1) (a :: t) = _
  rw [subPatGo]
  simp only [hc, if_pos]
  apply subPatGo_fuel
  · calc (List.dropWhile pyWs (List.drop pat.length (a :: t))).length
        ≤ (List.drop pat.length (a :: t)).length := length_dropWhile_le _ _
      _ = (a :: t).length - pat.length := by rw [List.length_drop]
      _ ≤ t.length := by simp [List.length_cons]; omega
  · exact Nat.le_refl _

theorem subPat_cons_nomatch {pat : List Char} {a : Char} {t : List Char}
    (hc : (!pat.isEmpty && startsWith pat (a :: t)) = false) :
    subPat pat (a :: t) = a :: subPat pat t := by
  show subPatGo pat (t.length + 1) (a :: t) = _
  rw [subPatGo]
  simp only [hc, Bool.false_eq_true, if_false]
  rfl

theorem startsWith_append_left {pat l : List Char} (y : List Char)
    (h : startsWith pat l = true) : startsWith pat (l ++ y) = true := by
  induction pat generalizing l with
  | nil => rfl
  | cons p ps ih =>
    cases l with
    | nil => simp [startsWith] at h
    | cons c cs =>
      simp only [startsWith, Bool.and_eq_true] at h ⊢
      exact ⟨h.1, ih h.2⟩

theorem startsWith_take {pat x y : List Char}
    (h : startsWith pat (x ++ y) = true) (hlen : pat.length ≤ x.length) :
    startsWith pat x = true := by
  induction pat generalizing x with
  | nil => rfl
  | cons p ps ih =>
    cases x with
    | nil => simp at hlen
    | cons c cs =>
      rw [List.cons_append] at h
      simp only [startsWith, Bool.and_eq_true] at h ⊢
      exact ⟨h.1, ih h.2 (by simpa using hlen)⟩

theorem startsWith_get {pat l : List Char} (h : startsWith pat l = true) :
    ∀ i, i < pat.length → l.get? i = pat.get? i := by
  induction pat generalizing l with
  | nil => intro i hi; simp at hi
  | cons p ps ih =>
    cases l with
    | nil => simp [startsWith] at h
    | cons c cs =>
      simp only [startsWith, Bool.and_eq_true, beq_iff_eq] at h
      intro i hi
      cases i with
      | zero => simp [h.1]
      | succ i => simpa using ih h.2 i (by simpa using hi)

theorem startsWith_self (pat r : List Char) : startsWith pat (pat ++ r) = true := by
  induction pat with
  | nil => rfl
  | cons p ps ih => simp [startsWith, ih]

theorem startsWith_head_ne {p0 c : Char} {ps t : List Char} (h : p0 ≠ c) :
    startsWith (p0 :: ps) (c :: t) = false := by
  simp [startsWith, h]

theorem occursIn_cons_false {pat : List Char} {a : Char} {t : List Char}
    (h : occursIn pat (a :: t) = false) :
    startsWith pat (a :: t) = false ∧ occursIn pat t = false := by
  simp only [occursIn, Bool.or_eq_false_iff] at h
  exact h

theorem subPat_of_not_occurs {pat : List Char} :
    ∀ l, occursIn pat l = false → subPat pat l = l := by
  intro l
  induction l with
  | nil => intro _; rfl
  | cons a t ih =>
    intro h
    obtain ⟨h1, h2⟩ := occursIn_cons_false h
    rw [subPat_cons_nomatch (by simp [h1]), ih h2]

theorem getLast?_append_right {α : Type} (l1 : List α) {l2 : List α}
    (h : l2 ≠ []) : (l1 ++ l2).getLast? = l2.getLast? := by
  induction l1 with
  | nil => rfl
  | cons a t ih =>
    rw [List.cons_append, List.getLast?_cons, ih]
    cases l2 with
    | nil => exact absurd rfl h
    | cons b s => simp [List.getLast?_cons]

theorem getLast?_mem {α : Type} {l : List α} {a : α}
    (h : l.getLast? = some a) : a ∈ l := by
  induction l with
  | nil => cases h
  | cons b t ih =>
    cases t with
    | nil =>
      simp [List.getLast?_cons] at h
      simp [h]
    | cons c s =>
      rw [show b :: c :: s = [b] ++ (c :: s) from rfl,
        getLast?_append_right [b] (by simp)] at h
      exact List.mem_cons_of_mem _ (ih h)

theorem getLast?_eq_get? {α : Type} (l : List α) (hne : l ≠ []) :
    l.getLast? = l.get? (l.length - 1) := by
  induction l with
  | nil => exact absurd rfl hne
  | cons a t ih =>
    cases t with
    | nil => rfl
    | cons b s =>
      rw [show a :: b :: s = [a] ++ (b :: s) from rfl,
        getLast?_append_right [a] (by simp), ih (by simp)]
      simp [List.length_cons]

theorem getLast?_drop {α : Type} {l : List α} {n : Nat}
    (h : l.drop n ≠ []) : (l.drop n).getLast? = l.getLast? := by
  conv_rhs => rw [← List.take_append_drop n l]
  rw [getLast?_append_right _ h]

theorem dropWhile_ne_nil_of_getLast {p : Char → Bool} {l : List Char} {Z : Char}
    (h : l.getLast? = some Z) (hZ : p Z = false) :
    l.dropWhile p ≠ [] := by
  intro hd
  have hall := List.dropWhile_eq_nil_iff.mp hd
  have := hall Z (getLast?_mem h)
  rw [hZ] at this
  cases this

theorem getLast?_dropWhile {p : Char → Bool} {l : List Char}
    (h : l.dropWhile p ≠ []) : (l.dropWhile p).getLast? = l.getLast? := by
  conv_rhs => rw [← List.takeWhile_append_dropWhile p l]
  rw [getLast?_append_right _ h]

theorem dropWhile_append_of_ne_nil {p : Char → Bool} {u : List Char}
    (y : List Char) (h : u.dropWhile p ≠ []) :
    (u ++ y).dropWhile p = u.dropWhile p ++ y := by
  induction u with
  | nil => exact absurd rfl h
  | cons a t ih =>
    rw [List.cons_append, List.dropWhile_cons, List.dropWhile_cons]
    by_cases hp : p a = true
    · rw [List.dropWhile_cons, hp] at h
      simp only [hp, if_pos] at h ⊢
      exact ih h
    · simp [hp]

theorem dropWhile_allP_append {p : Char → Bool} {w r : List Char} {h0 : Char}
    (hw : ∀ c ∈ w, p c = true) (hr : r.head? = some h0) (hh : p h0 = false) :
    (w ++ r).dropWhile p = r := by
  induction w with
  | nil =>
    cases r with
    | nil => cases hr
    | cons a t =>
      simp only [List.head?_cons, Option.some.injEq] at hr
      subst hr
      simp [List.dropWhile_cons, hh]
  | cons a t ih =>
    rw [List.cons_append, List.dropWhile_cons, hw a (List.mem_cons_self a t)]
    simp only [if_pos]
    exact ih (fun c hc => hw c (List.mem_cons_of_mem a hc))

theorem dropWhile_append_single {p : Char → Bool} (u : List Char) {Z : Char}
    (hZ : p Z = false) :
    (u ++ [Z]).dropWhile p = u.dropWhile p ++ [Z] := by
  by_cases h : u.dropWhile p = []
  · rw [h, List.nil_append,
      dropWhile_allP_append (List.dropWhile_eq_nil_iff.mp h)
        (show ([Z] : List Char).head? = some Z from rfl) hZ]
  · exact dropWhile_append_of_ne_nil [Z] h

theorem subPat_allWs_append {p0 : Char} {ps : List Char}
    (hp0 : pyWs p0 = false) :
    ∀ (w r : List Char), (∀ c ∈ w, pyWs c = true) →
    subPat (p0 :: ps) (w ++ r) = w ++ subPat (p0 :: ps) r := by
  intro w
  induction w with
  | nil => intro r _; rfl
  | cons c wt ih =>
    intro r hw
    have hc : pyWs c = true := hw c (List.mem_cons_self c wt)
    have hne : p0 ≠ c := by
      intro hEq
      rw [hEq, hc] at hp0
      cases hp0
    rw [List.cons_append,
      subPat_cons_nomatch (by simp [startsWith_head_ne hne]),
      ih r (fun d hd => hw d (List.mem_cons_of_mem c hd))]
    rfl

theorem subPat_append_last (pat : List Char) (hp : pat ≠ []) {Z : Char}
    (hZ : Z ∉ pat) (hZw : pyWs Z = false) :
    ∀ (N : Nat) (x : List Char), x.length ≤ N →
    subPat pat (x ++ [Z]) = subPat pat x ++ [Z] := by
  intro N
  induction N with
  | zero =>
    intro x hx
    have : x = [] := List.length_eq_zero.mp (by omega)
    subst this
    obtain ⟨p0, ps, rfl⟩ : ∃ p0 ps, pat = p0 :: ps := by
      cases pat with
      | nil => exact absurd rfl hp
      | cons p0 ps => exact ⟨p0, ps, rfl⟩
    have hne : p0 ≠ Z := fun hEq => hZ (hEq ▸ List.mem_cons_self p0 ps)
    rw [List.nil_append, subPat_nil,
      subPat_cons_nomatch (by simp [startsWith_head_ne hne]), subPat_nil]
    rfl
  | succ N ih =>
    intro x hx
    cases x with
    | nil =>
      obtain ⟨p0, ps, rfl⟩ : ∃ p0 ps, pat = p0 :: ps := by
        cases pat with
        | nil => exact absurd rfl hp
        | cons p0 ps => exact ⟨p0, ps, rfl⟩
      have hne : p0 ≠ Z := fun hEq => hZ (hEq ▸ List.mem_cons_self p0 ps)
      rw [List.nil_append, subPat_nil,
        subPat_cons_nomatch (by simp [startsWith_head_ne hne]), subPat_nil]
      rfl
    | cons a t =>
      by_cases hsw : startsWith pat (a :: t ++ [Z]) = true
      · have hplen : pat.length ≤ (a :: t).length := by
          by_contra hgt
          push_neg at hgt
          have hi : (a :: t).length < pat.length := hgt
          have hg := startsWith_get hsw (a :: t).length hi
          rw [List.get?_append_right (Nat.le_refl _)] at hg
          simp only [Nat.sub_self, List.get?] at hg
          exact hZ (List.get?_mem hg.symm)
        have hswx : startsWith pat (a :: t) = true := startsWith_take hsw hplen
        have hpne : ¬ pat.isEmpty := by
          cases pat with
          | nil => exact absurd rfl hp
          | cons _ _ => simp
        rw [show (a :: t) ++ [Z] = a :: (t ++ [Z]) from rfl,
          subPat_cons_match (by simp [hpne, show startsWith pat
            (a :: (t ++ [Z])) = true from hsw]),
          subPat_cons_match (by simp [hpne, hswx])]
        rw [show a :: (t ++ [Z]) = (a :: t) ++ [Z] from rfl,
          List.drop_append_of_le_length hplen,
          dropWhile_append_single _ hZw]
        apply ih
        calc (List.dropWhile pyWs (List.drop pat.length (a :: t))).length
            ≤ (List.drop pat.length (a :: t)).length := length_dropWhile_le _ _
          _ = (a :: t).length - pat.length := by rw [List.length_drop]
          _ ≤ N := by
            have hp1 : 1 ≤ pat.length := by
              cases pat with
              | nil => exact absurd rfl hp
              | cons _ _ => simp
            simp only [List.length_cons] at hx ⊢
            omega
      · have hswx : startsWith pat (a :: t) = false := by
          by_contra hT
          rw [Bool.not_eq_false] at hT
          have := startsWith_append_left [Z] hT
          rw [List.cons_append] at this
          exact hsw this
        rw [show (a :: t) ++ [Z] = a :: (t ++ [Z]) from rfl,
          subPat_cons_nomatch (by simp [show startsWith pat (a :: (t ++ [Z])) =
            false from Bool.eq_false_iff.mpr hsw]),
          subPat_cons_nomatch (by simp [hswx]),
          ih t (by simp only [List.length_cons] at hx; omega)]
        rfl

theorem subPat_append_confined (pat : List Char) (hp : pat ≠ []) {Z : Char}
    (hZ : Z ∉ pat) (hZw : pyWs Z = false) :
    ∀ (N : Nat) (x y : List Char), x.length ≤ N → x ≠ [] →
    x.getLast? = some Z →
    subPat pat (x ++ y) = subPat pat x ++ subPat pat y := by
  intro N
  induction N with
  | zero =>
    intro x y hx hne _
    have : x = [] := List.length_eq_zero.mp (by omega)
    exact absurd this hne
  | succ N ih =>
    intro x y hx hne hlast
    cases x with
    | nil => exact absurd rfl hne
    | cons a t =>
      have hpne : ¬ pat.isEmpty := by
        cases pat with
        | nil => exact absurd rfl hp
        | cons _ _ => simp
      by_cases hsw : startsWith pat (a :: t ++ y) = true
      · have hgl : (a :: t).get? ((a :: t).length - 1) = some Z := by
          rw [← getLast?_eq_get? _ (by simp)]
          exact hlast
        have hplen : pat.length ≤ (a :: t).length := by
          by_contra hgt
          push_neg at hgt
          have hi : (a :: t).length - 1 < pat.length := by
            simp only [List.length_cons] at hgt ⊢
            omega
          have hg := startsWith_get hsw ((a :: t).length - 1) hi
          rw [List.get?_append (by simp only [List.length_cons]; omega)] at hg
          rw [hgl] at hg
          exact hZ (List.get?_mem hg.symm)
        have hswx : startsWith pat (a :: t) = true := startsWith_take hsw hplen
        have hune : List.drop pat.length (a :: t) ≠ [] := by
          intro hu
          have hlen0 : (a :: t).length - pat.length = 0 := by
            rw [← List.length_drop, hu]
            rfl
          have heq : pat.length = (a :: t).length := by
            have := hplen
            omega
          have hi : (a :: t).length - 1 < pat.length := by
            rw [heq]
            simp only [List.length_cons]
            omega
          have hg := startsWith_get hsw ((a :: t).length - 1) hi
          rw [List.get?_append (by simp only [List.length_cons]; omega)] at hg
          rw [hgl] at hg
          exact hZ (List.get?_mem hg.symm)
        have hulast : (List.drop pat.length (a :: t)).getLast? = some Z := by
          rw [getLast?_drop hune]
          exact hlast
        have hdwne : (List.drop pat.length (a :: t)).dropWhile pyWs ≠ [] :=
          dropWhile_ne_nil_of_getLast hulast hZw
        have hdwlast :
            ((List.drop pat.length (a :: t)).dropWhile pyWs).getLast? = some Z := by
          rw [getLast?_dropWhile hdwne]
          exact hulast
        rw [show (a :: t) ++ y = a :: (t ++ y) from rfl,
          subPat_cons_match (by simp [hpne, show startsWith pat (a :: (t ++ y)) =
            true from hsw]),
          subPat_cons_match (by simp [hpne, hswx]),
          show a :: (t ++ y) = (a :: t) ++ y from rfl,
          List.drop_append_of_le_length hplen,
          dropWhile_append_of_ne_nil y hdwne]
        apply ih _ y ?_ hdwne hdwlast
        calc ((List.drop pat.length (a :: t)).dropWhile pyWs).length
            ≤ (List.drop pat.length (a :: t)).length := length_dropWhile_le _ _
          _ = (a :: t).length - pat.length := by rw [List.length_drop]
          _ ≤ N := by
            have hp1 : 1 ≤ pat.length := by
              cases pat with
              | nil => exact absurd rfl hp
              | cons _ _ => simp
            simp only [List.length_cons] at hx ⊢
            omega
      · have hswx : startsWith pat (a :: t) = false := by
          by_contra hT
          rw [Bool.not_eq_false] at hT
          have := startsWith_append_left y hT
          rw [List.cons_append] at this
          exact hsw this
        rw [show (a :: t) ++ y = a :: (t ++ y) from rfl,
          subPat_cons_nomatch (by simp [show startsWith pat (a :: (t ++ y)) =
            false from Bool.eq_false_iff.mpr hsw]),
          subPat_cons_nomatch (by simp [hswx])]
        cases ht : t with
        | nil =>
          subst ht
          rfl
        | cons b s =>
          have htne : t ≠ [] := by rw [ht]; simp
          rw [← ht]
          have htlast : t.getLast? = some Z := by
            rw [show a :: t = [a] ++ t from rfl,
              getLast?_append_right [a] htne] at hlast
            exact hlast
          rw [ih t y (by simp only [List.length_cons] at hx; omega) htne htlast]
          rfl

theorem head?_append_left {α : Type} {X : List α} (w : List α) (h : X ≠ []) :
    (X ++ w).head? = X.head? := by
  cases X with
  | nil => exact absurd rfl h
  | cons a t => rfl

theorem pyStrip_shape {w1 X w2 : List Char} {hh hl : Char}
    (h1 : ∀ c ∈ w1, pyWs c = true) (h2 : ∀ c ∈ w2, pyWs c = true)
    (hhead : X.head? = some hh) (hhw : pyWs hh = false)
    (hlast : X.getLast? = some hl) (hlw : pyWs hl = false) :
    pyStrip (w1 ++ X ++ w2) = X := by
  have hXne : X ≠ [] := by
    intro hX
    rw [hX] at hhead
    cases hhead
  rw [pyStrip, List.append_assoc,
    dropWhile_allP_append h1 (by rw [head?_append_left w2 hXne]; exact hhead) hhw,
    List.reverse_append]
  have hrw : ∀ c ∈ w2.reverse, pyWs c = true := by
    intro c hc
    exact h2 c (List.mem_reverse.mp hc)
  rw [dropWhile_allP_append hrw (by rw [List.head?_reverse]; exact hlast) hlw,
    List.reverse_reverse]

theorem subPat_cons_keep {p0 c : Char} {ps t : List Char} (h : p0 ≠ c) :
    subPat (p0 :: ps) (c :: t) = c :: subPat (p0 :: ps) t :=
  subPat_cons_nomatch (by simp [startsWith_head_ne h])

theorem subPat_keep_brackets (pat : List Char) (p0 : Char) (ps : List Char)
    (hfp : pat = p0 :: ps) (hp0 : p0 ≠ '[') (hZ : ']' ∉ pat) :
    ∀ c : List Char, c.head? = some '[' → c.getLast? = some ']' →
    (subPat pat c).head? = some '[' ∧ (subPat pat c).getLast? = some ']' ∧
      subPat pat c ≠ [] := by
  intro c hh hl
  obtain ⟨ct, rfl⟩ : ∃ ct, c = '[' :: ct := by
    cases c with
    | nil => cases hh
    | cons a t =>
      simp only [List.head?_cons, Option.some.injEq] at hh
      exact ⟨t, by rw [hh]⟩
  have hcne : ('[' :: ct) ≠ [] := by simp
  have hA1 : subPat pat ('[' :: ct) = '[' :: subPat pat ct := by
    rw [hfp]
    exact subPat_cons_keep hp0
  refine ⟨by rw [hA1]; rfl, ?_, by rw [hA1]; simp⟩
  have hglast : ('[' :: ct).getLast hcne = ']' := by
    have := List.getLast?_eq_getLast ('[' :: ct) hcne
    rw [hl] at this
    exact (Option.some.injEq _ _).mp this.symm
  have hsplit : '[' :: ct = ('[' :: ct).dropLast ++ [']'] := by
    conv_lhs => rw [← List.dropLast_append_getLast hcne]
    rw [hglast]
  rw [hsplit, subPat_append_last pat (by rw [hfp]; simp) hZ (by decide)
    ((('[' :: ct).dropLast).length) _ (Nat.le_refl _),
    getLast?_append_right _ (by simp)]
  rfl

theorem cleanResp_fence_eq (w1 c w2 : List Char)
    (h1 : ∀ ch ∈ w1, pyWs ch = true) (h2 : ∀ ch ∈ w2, pyWs ch = true)
    (hhead : c.head? = some '[') (hlast : c.getLast? = some ']') :
    cleanResp (fenceWrap (w1 ++ (c ++ w2))) = cleanResp (w1 ++ (c ++ w2)) := by
  have hcne : c ≠ [] := by
    intro hc
    rw [hc] at hhead
    cases hhead
  have hfj : fenceJson = fenceJson.headD ' ' :: fenceJson.tail := by decide
  have hft : fenceTicks = fenceTicks.headD ' ' :: fenceTicks.tail := by decide
  have hAfacts := subPat_keep_brackets fenceJson _ _ hfj (by decide) (by decide)
    c hhead hlast
  have hXfacts := subPat_keep_brackets fenceTicks _ _ hft (by decide) (by decide)
    (subPat fenceJson c) hAfacts.1 hAfacts.2.1
  have hallws1 : ∀ (w r : List Char), (∀ ch ∈ w, pyWs ch = true) →
      subPat fenceJson (w ++ r) = w ++ subPat fenceJson r := by
    intro w r hw
    rw [hfj]
    exact subPat_allWs_append (by decide) w r hw
  have hallws2 : ∀ (w r : List Char), (∀ ch ∈ w, pyWs ch = true) →
      subPat fenceTicks (w ++ r) = w ++ subPat fenceTicks r := by
    intro w r hw
    rw [hft]
    exact subPat_allWs_append (by decide) w r hw
  have hid1 : ∀ w : List Char, (∀ ch ∈ w, pyWs ch = true) →
      subPat fenceJson w = w := by
    intro w hw
    have := hallws1 w [] hw
    simpa [subPat_nil] using this
  have hid2 : ∀ w : List Char, (∀ ch ∈ w, pyWs ch = true) →
      subPat fenceTicks w = w := by
    intro w hw
    have := hallws2 w [] hw
    simpa [subPat_nil] using this
  have hconf1 : ∀ y : List Char,
      subPat fenceJson (c ++ y) = subPat fenceJson c ++ subPat fenceJson y :=
    fun y => subPat_append_confined fenceJson (by decide) (Z := ']') (by decide)
      (by decide) c.length c y (Nat.le_refl _) hcne hlast
  have hconf2 : ∀ y : List Char,
      subPat fenceTicks (subPat fenceJson c ++ y) =
        subPat fenceTicks (subPat fenceJson c) ++ subPat fenceTicks y :=
    fun y => subPat_append_confined fenceTicks (by decide) (Z := ']') (by decide)
      (by decide) (subPat fenceJson c).length _ y (Nat.le_refl _)
      hAfacts.2.2 hAfacts.2.1
  -- right-hand side
  have hrhs : cleanResp (w1 ++ (c ++ w2)) = subPat fenceTicks (subPat fenceJson c) := by
    rw [cleanResp, subPat, ← subPat] at *
    rw [show subPat fenceJson (w1 ++ (c ++ w2)) =
        w1 ++ (subPat fenceJson c ++ w2) from by
      rw [hallws1 w1 _ h1, hconf1 w2, hid1 w2 h2]]
    rw [show subPat fenceTicks (w1 ++ (subPat fenceJson c ++ w2)) =
        w1 ++ (subPat fenceTicks (subPat fenceJson c) ++ w2) from by
      rw [hallws2 w1 _ h1, hconf2 w2, hid2 w2 h2]]
    rw [← List.append_assoc]
    exact @pyStrip_shape w1 (subPat fenceTicks (subPat fenceJson c)) w2 '[' ']'
      h1 h2 hXfacts.1 (by decide) hXfacts.2.1 (by decide)
  -- left-hand side
  have hw1S : "```json\n".toList = fenceJson ++ ['\n'] := by decide
  have hS1 : subPat fenceJson ("\n```".toList) = "\n```".toList := by decide
  have hS2 : subPat fenceTicks ("\n```".toList) = ['\n'] := by decide
  have hlhs : cleanResp (fenceWrap (w1 ++ (c ++ w2))) =
      subPat fenceTicks (subPat fenceJson c) := by
    rw [cleanResp, fenceWrap, hw1S]
    have hassoc : (fenceJson ++ ['\n']) ++ (w1 ++ (c ++ w2)) ++ "\n```".toList =
        fenceJson ++ ('\n' :: (w1 ++ (c ++ (w2 ++ "\n```".toList)))) := by
      simp [List.append_assoc]
    rw [hassoc]
    have hmatch : ∀ r : List Char, subPat fenceJson (fenceJson ++ r) =
        subPat fenceJson (List.dropWhile pyWs r) := by
      intro r
      have hcond : (!fenceJson.isEmpty && startsWith fenceJson
          (fenceJson.headD ' ' :: (fenceJson.tail ++ r))) = true := by
        rw [← List.cons_append, ← hfj, startsWith_self]
        decide
      have harg : fenceJson ++ r = fenceJson.headD ' ' :: (fenceJson.tail ++ r) := by
        rw [← List.cons_append, ← hfj]
      rw [harg, subPat_cons_match hcond, ← harg, List.drop_left]
    rw [hmatch]
    have hdw : List.dropWhile pyWs
        ('\n' :: (w1 ++ (c ++ (w2 ++ "\n```".toList)))) =
        c ++ (w2 ++ "\n```".toList) := by
      rw [show ('\n' :: (w1 ++ (c ++ (w2 ++ "\n```".toList)))) =
          ('\n' :: w1) ++ (c ++ (w2 ++ "\n```".toList)) from rfl]
      have hhd : (c ++ (w2 ++ "\n```".toList)).head? = some '[' := by
        rw [head?_append_left _ hcne]
        exact hhead
      refine dropWhile_allP_append ?_ hhd (by decide)
      intro ch hch
      rcases List.mem_cons.mp hch with hch | hch
      · rw [hch]; rfl
      · exact h1 ch hch
    rw [hdw, hconf1, hallws1 w2 _ h2, hS1, hconf2, hallws2 w2 _ h2, hS2]
    have hfin : pyStrip (([] : List Char) ++
        subPat fenceTicks (subPat fenceJson c) ++ (w2 ++ ['\n'])) =
        subPat fenceTicks (subPat fenceJson c) := by
      refine @pyStrip_shape [] (subPat fenceTicks (subPat fenceJson c))
        (w2 ++ ['\n']) '[' ']' (fun ch hch => by cases hch) ?_ hXfacts.1
        (by decide) hXfacts.2.1 (by decide)
      intro ch hch
      rcases List.mem_append.mp hch with hch | hch
      · exact h2 ch hch
      · rcases List.mem_cons.mp hch with hch | hch
        · rw [hch]; rfl
        · cases hch
    simpa [List.append_assoc] using hfin
  rw [hlhs, hrhs]

theorem dropWhile_isSuffix (p : Char → Bool) (l : List Char) :
    l.dropWhile p <:+ l :=
  ⟨l.takeWhile p, List.takeWhile_append_dropWhile p l⟩

theorem map_eq_some_parse {g : List Nat → List Nat} {s : List Nat}
    {r rest : List Char}
    (h : (parseStringBody rest).map (fun p => (g p.1, p.2)) = some (s, r)) :
    ∃ s', parseStringBody rest = some (s', r) := by
  cases hp : parseStringBody rest with
  | none => rw [hp] at h; cases h
  | some p =>
    rw [hp] at h
    injection h with h1
    refine ⟨p.1, ?_⟩
    have hr : p.2 = r := congrArg Prod.snd h1
    rw [← hr]

set_option maxHeartbeats 1000000 in
theorem parseStringBody_suffix :
    ∀ (n : Nat) (l : List Char), l.length ≤ n → ∀ (s : List Nat) (r : List Char),
    parseStringBody l = some (s, r) → r <:+ l := by
  intro n
  induction n with
  | zero =>
    intro l hl s r h
    have hnil : l = [] := List.length_eq_zero.mp (by omega)
    subst hnil
    rw [parseStringBody.eq_def] at h
    cases h
  | succ n ih =>
    intro l hl s r h
    rw [parseStringBody.eq_def] at h
    split at h
    all_goals try split at h
    all_goals try split at h
    all_goals try split at h
    all_goals try split at h
    all_goals try split at h
    all_goals
      first
      | exact Option.noConfusion h
      | (simp only [Option.some.injEq, Prod.mk.injEq] at h
         rw [← h.2]
         repeat
           first
           | exact List.suffix_refl _
           | refine List.IsSuffix.trans ?_ (List.suffix_cons _ _))
      | (obtain ⟨s', hps⟩ := map_eq_some_parse h
         have hsfx := ih _ (by simp only [List.length_cons] at hl ⊢; omega) _ _ hps
         repeat
           first
           | exact hsfx
           | refine List.IsSuffix.trans ?_ (List.suffix_cons _ _))

theorem parseIntPart_suffix {l ip r : List Char}
    (h : parseIntPart l = some (ip, r)) : r <:+ l := by
  rw [parseIntPart.eq_def] at h
  split at h
  · injection h with h1
    have hr : r = _ := (congrArg Prod.snd h1).symm
    rw [hr]
    exact List.suffix_cons _ _
  · split at h
    · injection h with h1
      have hr : r = (splitDigits _).2 := (congrArg Prod.snd h1).symm
      rw [hr, splitDigits]
      exact (dropWhile_isSuffix _ _).trans (List.suffix_cons _ _)
    · cases h
  · cases h

theorem parseFrac_suffix (l : List Char) : (parseFrac l).2 <:+ l := by
  rw [parseFrac.eq_def]
  split
  all_goals try (dsimp only; split)
  all_goals
    first
    | exact List.suffix_refl _
    | exact (dropWhile_isSuffix _ _).trans (List.suffix_cons _ _)

theorem parseExp_suffix (l : List Char) : (parseExp l).2 <:+ l := by
  rw [parseExp.eq_def]
  split
  all_goals try split
  all_goals try split
  all_goals try (dsimp only; split)
  all_goals try split
  all_goals
    first
    | exact List.suffix_refl _
    | exact (dropWhile_isSuffix _ _).trans (List.suffix_cons _ _)
    | exact ((dropWhile_isSuffix _ _).trans (List.suffix_cons _ _)).trans
        (List.suffix_cons _ _)

theorem parseNumber_parts {l : List Char} {v : Json} {r : List Char}
    (h : parseNumber l = some (v, r)) :
    (r <:+ l) ∧ ∃ a, v = Json.numLit a := by
  rw [parseNumber.eq_def] at h
  split at h
  · cases hip : parseIntPart _ with
    | none => rw [hip] at h; cases h
    | some q =>
      obtain ⟨ip, r1⟩ := q
      rw [hip] at h
      injection h with h1
      have hr : r = (parseExp (parseFrac r1).2).2 := (congrArg Prod.snd h1).symm
      refine ⟨?_, _, (congrArg Prod.fst h1).symm⟩
      rw [hr]
      exact (((parseExp_suffix _).trans (parseFrac_suffix _)).trans
        (parseIntPart_suffix hip)).trans (List.suffix_cons _ _)
  · cases hip : parseIntPart l with
    | none => rw [hip] at h; cases h
    | some q =>
      obtain ⟨ip, r1⟩ := q
      rw [hip] at h
      injection h with h1
      have hr : r = (parseExp (parseFrac r1).2).2 := (congrArg Prod.snd h1).symm
      refine ⟨?_, _, (congrArg Prod.fst h1).symm⟩
      rw [hr]
      exact ((parseExp_suffix _).trans (parseFrac_suffix _)).trans
        (parseIntPart_suffix hip)

set_option maxHeartbeats 2000000 in
theorem parse_suffix : ∀ (f : Nat),
    (∀ (l : List Char) (v : Json) (r : List Char),
      parseValue f l = some (v, r) →
        r <:+ l ∧
        (∀ vs, v = Json.arr vs →
          ∃ c, l = c ++ r ∧ c.head? = some '[' ∧ c.getLast? = some ']')) ∧
    (∀ (l : List Char) (acc : List Json) (v : Json) (r : List Char),
      parseArrItems f l acc = some (v, r) →
        ((']' :: r) <:+ l) ∧ ∃ vs, v = Json.arr vs) ∧
    (∀ (l : List Char) (acc : List (List Nat × Json)) (v : Json) (r : List Char),
      parseObjItems f l acc = some (v, r) →
        (r <:+ l) ∧ ∃ ms, v = Json.obj ms) := by
  intro f
  induction f with
  | zero =>
    refine ⟨fun l v r h => ?_, fun l acc v r h => ?_, fun l acc v r h => ?_⟩
    · cases h
    · cases h
    · cases h
  | succ f ih =>
    obtain ⟨ihv, iha, iho⟩ := ih
    refine ⟨fun l v r h => ?_, fun l acc v r h => ?_, fun l acc v r h => ?_⟩
    · -- parseValue
      rw [parseValue.eq_def] at h
      split at h
      · cases h
      · -- '{' :: rest
        rename_i fq rest heq
        obtain rfl : fq = f := by omega
        split at h
        · -- '}' :: r2
          rename_i r2 heq2
          rw [Option.some.injEq, Prod.mk.injEq] at h
          obtain ⟨hv, hr⟩ := h
          subst hv
          subst hr
          refine ⟨?_, ?_⟩
          · exact ((List.suffix_cons '}' r2).trans
              (heq2 ▸ dropWhile_isSuffix jsonWs rest)).trans
              (List.suffix_cons '{' rest)
          · intro vs hva
            cases hva
        · -- '"' :: r2
          rename_i r2 heq2
          obtain ⟨hs, ms, hv⟩ := iho _ _ _ _ h
          refine ⟨?_, ?_⟩
          · exact (hs.trans ((List.suffix_cons '"' r2).trans
              (heq2 ▸ dropWhile_isSuffix jsonWs rest))).trans
              (List.suffix_cons '{' rest)
          · intro vs hva
            rw [hv] at hva
            cases hva
        · cases h
      · -- '[' :: rest
        rename_i fq rest heq
        obtain rfl : fq = f := by omega
        split at h
        · -- ']' :: r2
          rename_i r2 heq2
          rw [Option.some.injEq, Prod.mk.injEq] at h
          obtain ⟨hv, hr⟩ := h
          subst hv
          subst hr
          refine ⟨?_, ?_⟩
          · exact ((List.suffix_cons ']' r2).trans
              (heq2 ▸ dropWhile_isSuffix jsonWs rest)).trans
              (List.suffix_cons '[' rest)
          · intro vs hva
            refine ⟨'[' :: (List.takeWhile jsonWs rest ++ [']']), ?_, rfl, ?_⟩
            · simp only [List.cons_append, List.append_assoc, List.singleton_append,
                List.nil_append]
              rw [← heq2, List.takeWhile_append_dropWhile]
            · rw [show '[' :: (List.takeWhile jsonWs rest ++ [']']) =
                ('[' :: List.takeWhile jsonWs rest) ++ [']'] from rfl,
                getLast?_append_right _ (by simp)]
              rfl
        · -- default: parseArrItems
          obtain ⟨hs, vs0, hv⟩ := iha _ _ _ _ h
          refine ⟨?_, ?_⟩
          · exact (((List.suffix_cons ']' r).trans hs).trans
              (dropWhile_isSuffix jsonWs rest)).trans (List.suffix_cons '[' rest)
          · intro vs hva
            obtain ⟨u, hu⟩ := hs
            refine ⟨'[' :: (List.takeWhile jsonWs rest ++ u ++ [']']), ?_, rfl, ?_⟩
            · simp only [List.cons_append, List.append_assoc, List.singleton_append,
                List.nil_append]
              rw [hu, List.takeWhile_append_dropWhile]
            · rw [show '[' :: (List.takeWhile jsonWs rest ++ u ++ [']']) =
                ('[' :: (List.takeWhile jsonWs rest ++ u)) ++ [']'] from rfl,
                getLast?_append_right _ (by simp)]
              rfl
      · -- '"' :: rest
        rename_i rest heq
        cases hp : parseStringBody rest with
        | none => rw [hp] at h; cases h
        | some p =>
          rw [hp] at h
          rw [Option.map_some', Option.some.injEq, Prod.mk.injEq] at h
          obtain ⟨hv, hr⟩ := h
          subst hr
          refine ⟨?_, ?_⟩
          · exact (parseStringBody_suffix rest.length rest le_rfl p.1 p.2
              (by rw [hp])).trans (List.suffix_cons '"' rest)
          · intro vs hva
            rw [← hv] at hva
            cases hva
      · -- default: keyword literals then parseNumber
        split at h
        · rw [Option.some.injEq, Prod.mk.injEq] at h
          obtain ⟨hv, hr⟩ := h
          subst hr
          exact ⟨List.drop_suffix _ _, fun vs hva => by rw [← hv] at hva; cases hva⟩
        · split at h
          · rw [Option.some.injEq, Prod.mk.injEq] at h
            obtain ⟨hv, hr⟩ := h
            subst hr
            exact ⟨List.drop_suffix _ _, fun vs hva => by rw [← hv] at hva; cases hva⟩
          · split at h
            · rw [Option.some.injEq, Prod.mk.injEq] at h
              obtain ⟨hv, hr⟩ := h
              subst hr
              exact ⟨List.drop_suffix _ _, fun vs hva => by rw [← hv] at hva; cases hva⟩
            · split at h
              · rw [Option.some.injEq, Prod.mk.injEq] at h
                obtain ⟨hv, hr⟩ := h
                subst hr
                exact ⟨List.drop_suffix _ _, fun vs hva => by rw [← hv] at hva; cases hva⟩
              · split at h
                · rw [Option.some.injEq, Prod.mk.injEq] at h
                  obtain ⟨hv, hr⟩ := h
                  subst hr
                  exact ⟨List.drop_suffix _ _, fun vs hva => by rw [← hv] at hva; cases hva⟩
                · split at h
                  · rw [Option.some.injEq, Prod.mk.injEq] at h
                    obtain ⟨hv, hr⟩ := h
                    subst hr
                    exact ⟨List.drop_suffix _ _,
                      fun vs hva => by rw [← hv] at hva; cases hva⟩
                  · obtain ⟨hs, a, hv⟩ := parseNumber_parts h
                    exact ⟨hs, fun vs hva => by rw [hv] at hva; cases hva⟩
    · -- parseArrItems
      rw [parseArrItems.eq_def] at h
      split at h
      · cases h
      · rename_i lq accq u1 u2 u3 fq heq
        obtain rfl : f = fq := by omega
        split at h
        · cases h
        · rename_i u4 v1 r1 hpv
          split at h
          · -- ']' :: r2
            rename_i u5 r2 heq2
            rw [Option.some.injEq, Prod.mk.injEq] at h
            obtain ⟨hv, hr⟩ := h
            subst hv
            subst hr
            refine ⟨?_, ⟨_, rfl⟩⟩
            exact (heq2 ▸ dropWhile_isSuffix jsonWs r1).trans (ihv _ _ _ hpv).1
          · -- ',' :: r2
            rename_i u5 r2 heq2
            obtain ⟨hs, vs, hv⟩ := iha _ _ _ _ h
            refine ⟨?_, ⟨vs, hv⟩⟩
            exact (hs.trans (dropWhile_isSuffix jsonWs r2)).trans
              (((List.suffix_cons ',' r2).trans
                (heq2 ▸ dropWhile_isSuffix jsonWs r1)).trans (ihv _ _ _ hpv).1)
          · cases h
    · -- parseObjItems
      rw [parseObjItems.eq_def] at h
      split at h
      · cases h
      · rename_i lq accq u1 u2 u3 fq heq
        obtain rfl : f = fq := by omega
        split at h
        · cases h
        · rename_i u4 key r1 hsb
          have hE : r1 <:+ lq :=
            parseStringBody_suffix lq.length lq le_rfl key r1 hsb
          split at h
          · -- ':' :: r2
            rename_i u5 r2 heq2
            have hD : r2 <:+ lq :=
              ((List.suffix_cons ':' r2).trans
                (heq2 ▸ dropWhile_isSuffix jsonWs r1)).trans hE
            split at h
            · cases h
            · rename_i u6 v3 r3 hpv
              have hA : r3 <:+ lq :=
                ((ihv _ _ _ hpv).1.trans (dropWhile_isSuffix jsonWs r2)).trans hD
              split at h
              · -- '}' :: r4
                rename_i u7 r4 heq4
                rw [Option.some.injEq, Prod.mk.injEq] at h
                obtain ⟨hv, hr⟩ := h
                subst hv
                subst hr
                refine ⟨?_, ⟨_, rfl⟩⟩
                exact ((List.suffix_cons '}' r4).trans
                  (heq4 ▸ dropWhile_isSuffix jsonWs r3)).trans hA
              · -- ',' :: r4
                rename_i u7 r4 heq4
                have hB : r4 <:+ lq :=
                  ((List.suffix_cons ',' r4).trans
                    (heq4 ▸ dropWhile_isSuffix jsonWs r3)).trans hA
                split at h
                · -- '"' :: r5
                  rename_i u8 r5 heq5
                  obtain ⟨hs, ms, hv⟩ := iho _ _ _ _ h
                  refine ⟨?_, ⟨ms, hv⟩⟩
                  exact (hs.trans ((List.suffix_cons '"' r5).trans
                    (heq5 ▸ dropWhile_isSuffix jsonWs r4))).trans hB
                · cases h
              · cases h
          · cases h

theorem jsonWs_pyWs {c : Char} (h : jsonWs c = true) : pyWs c = true := by
  simp only [jsonWs, Bool.or_eq_true, decide_eq_true_eq] at h
  simp only [pyWs, Bool.or_eq_true, decide_eq_true_eq]
  tauto

theorem firstIdx_lt {c : Char} :
    ∀ {l : List Char} {i : Nat}, firstIdx c l = some i → i < l.length := by
  intro l
  induction l with
  | nil => intro i h; cases h
  | cons a t ih =>
    intro i h
    rw [firstIdx] at h
    split at h
    · rw [Option.some.injEq] at h
      subst h
      simp
    · cases hf : firstIdx c t with
      | none => rw [hf] at h; cases h
      | some k =>
        rw [hf, Option.map_some', Option.some.injEq] at h
        subst h
        have := ih hf
        simp only [List.length_cons]
        omega

theorem lastIdx_lt {c : Char} {l : List Char} {j : Nat}
    (h : lastIdx c l = some j) : j < l.length := by
  unfold lastIdx at h
  cases hf : firstIdx c l.reverse with
  | none => rw [hf] at h; cases h
  | some k =>
    rw [hf, Option.map_some', Option.some.injEq] at h
    subst h
    have hk := firstIdx_lt hf
    rw [List.length_reverse] at hk
    omega

theorem bracketSlice_sub {l s : List Char} (h : bracketSlice l = some s) :
    ∃ i k, i ≤ l.length ∧ k ≤ l.length ∧ s = (l.drop i).take k := by
  unfold bracketSlice at h
  split at h
  · rename_i i j hfst hsnd
    split at h
    · rename_i hlt
      rw [Option.some.injEq] at h
      have hi : i < l.length := firstIdx_lt hfst
      have hj : j < l.length := lastIdx_lt hsnd
      refine ⟨i, j + 1 - i, by omega, by omega, ?_⟩
      rw [← h, List.drop_take]
    · cases h
  · cases h

theorem hasValidArrSub_of (l : List Char) (i j : Nat) (hi : i ≤ l.length)
    (hj : j ≤ l.length) (h : isArrValue (jsonParse ((l.drop i).take j)) = true) :
    hasValidArrSub l = true := by
  unfold hasValidArrSub
  rw [List.any_eq_true]
  exact ⟨i, List.mem_range.mpr (by omega),
    List.any_eq_true.mpr ⟨j, List.mem_range.mpr (by omega), h⟩⟩

theorem jsonParse_arr_shape {t : List Char} {vs : List Json}
    (h : jsonParse t = some (Json.arr vs)) :
    ∃ w1 c w2, t = w1 ++ (c ++ w2) ∧ (∀ ch ∈ w1, pyWs ch = true) ∧
      (∀ ch ∈ w2, pyWs ch = true) ∧
      c.head? = some '[' ∧ c.getLast? = some ']' := by
  unfold jsonParse at h
  split at h
  · rename_i u1 v1 rest1 hpv
    split at h
    · rename_i hemp
      rw [Option.some.injEq] at h
      subst h
      obtain ⟨c, hceq, hh, hl⟩ := ((parse_suffix _).1 _ _ _ hpv).2 vs rfl
      refine ⟨t.takeWhile jsonWs, c, rest1, ?_, ?_, ?_, hh, hl⟩
      · conv_lhs => rw [← List.takeWhile_append_dropWhile jsonWs t]
        rw [hceq]
      · intro ch hch
        exact jsonWs_pyWs (List.mem_takeWhile_imp hch)
      · intro ch hch
        have hnil : rest1.dropWhile jsonWs = [] := by
          simpa [List.isEmpty_iff] using hemp
        exact jsonWs_pyWs (List.dropWhile_eq_nil_iff.mp hnil ch hch)
    · cases h
  · cases h

/-- C9: fenced JSON parse round-trip for `parse_batch_response`
(gemini_analyzer.py lines 90-112).  Part 1, as claimed: a response
consisting of a valid JSON array text wrapped in code-fence markers parses
to exactly the same verdict list as the unwrapped text.  Part 2, amended:
a response yields the empty verdict list when its CLEANED form (code-fence
markers removed, then stripped) contains no substring parsing as a JSON
array; the raw text containing no valid JSON array is not sufficient,
since fence-marker removal can create a new array (see the
counterexample). -/
theorem C9_fenced_parse_round_trip :
    (∀ (t : List Char) (vs : List Json),
      jsonParse t = some (Json.arr vs) →
      parse_batch_response (fenceWrap t) = parse_batch_response t) ∧
    (∀ (r : List Char), hasValidArrSub (cleanResp r) = false →
      parse_batch_response r = []) := by
  constructor
  · intro t vs h
    obtain ⟨w1, c, w2, hdec, h1, h2, hh, hl⟩ := jsonParse_arr_shape h
    have hc : cleanResp (fenceWrap t) = cleanResp t := by
      rw [hdec]
      exact cleanResp_fence_eq w1 c w2 h1 h2 hh hl
    unfold parse_batch_response
    rw [hc]
  · intro r hno
    unfold parse_batch_response
    dsimp only
    split
    · rename_i vs hj
      exfalso
      have ht : hasValidArrSub (cleanResp r) = true := by
        refine hasValidArrSub_of _ 0 (cleanResp r).length (by omega) le_rfl ?_
        rw [List.drop_zero, List.take_length, hj]
        rfl
      rw [hno] at ht
      cases ht
    · split
      · rename_i s hbs
        split
        · rename_i vs hj
          exfalso
          obtain ⟨i, k, hi, hk, hs⟩ := bracketSlice_sub hbs
          have ht : hasValidArrSub (cleanResp r) = true := by
            refine hasValidArrSub_of _ i k hi hk ?_
            rw [← hs, hj]
            rfl
          rw [hno] at ht
          cases ht
        · rfl
      · rfl

/-- Counterexample to the unamended part 2 of C9: the raw response text
[1```]  contains no substring that parses as a JSON array (every substring
holding both brackets also holds a backtick), yet `parse_batch_response`
returns the nonempty verdict list of the array [1]: the fence-marker
removal deletes the backtick run and leaves a valid array. -/
theorem C9_claim_counterexample :
    hasValidArrSub ("[1```]".toList) = false ∧
    parse_batch_response ("[1```]".toList) = [Json.numLit ['1']] :=
  ⟨rfl, rfl⟩

/-- Witness for C9: both parts applied at concrete inputs. -/
theorem C9_fenced_parse_round_trip_witness :
    parse_batch_response (fenceWrap ("[1, 2]".toList)) =
      parse_batch_response ("[1, 2]".toList) ∧
    parse_batch_response ("x".toList) = [] :=
  ⟨C9_fenced_parse_round_trip.1 ("[1, 2]".toList)
      [Json.numLit ['1'], Json.numLit ['2']] rfl,
    C9_fenced_parse_round_trip.2 ("x".toList) rfl⟩

/-- Counterexample to the unamended C7: removing an absent id produces no
removal report at all (`remove_from_queue` prints only when the removed
count is positive), rather than reporting a count of 0 as claimed. -/
theorem C7_claim_counterexample :
    (remove_from_queue [mkE "A".toList, mkE "B".toList, mkE "C".toList,
        mkE "D".toList] ["Z".toList]).2.2 = Option.none ∧
    (remove_from_queue [mkE "A".toList, mkE "B".toList, mkE "C".toList,
        mkE "D".toList] ["Z".toList]).2.2 ≠ some 0 :=
  ⟨by decide, by decide⟩
